import Mathlib

/-!
Verification of the pathfinding module of the Lorien-Capital repository
(`src/utils/dijkstra.js`).  The JavaScript source is shallowly embedded:

* JS numbers are modelled by exact rationals `ℚ`; the special value
  `Infinity` (used for unreached costs) is modelled by the extended type
  `EQQ` below.  All arithmetic the module performs on these values
  (`+`, `*`, `<`, `<=`, `Math.min`, `Math.max`, `Math.abs`, `Math.floor`)
  is exact, so the rational model reproduces the JS control flow.
* Node keys `"x,y"` (strings built from the non-negative grid coordinates,
  used opaquely as map keys) are modelled by pairs `ℕ × ℕ`.
* Insertion-ordered JS `Map`s are association lists (`alookup` / `mapSet`
  below reproduce `Map.get` / `Map.set`), JS `Set`s are duplicate-free
  lists in insertion order (`setAdd` reproduces `Set.add`).
* The `while` loops of the two search functions are modelled by
  fuel-indexed recursion with a fuel that provably dominates the number of
  iterations the JS loop can perform, so the embedding returns exactly the
  state in which the JS loop exits.
-/

/- The library marks the arithmetic on `ℚ` irreducible, which blocks the
evaluation of concrete runs by `decide`; restore the definitional view. -/
attribute [local semireducible] Rat.add Rat.mul Rat.sub Rat.inv

/-- Extended rationals: the JS number line restricted to the values the
module actually produces, i.e. exact rationals plus `Infinity`. -/
inductive EQQ where
  | inf : EQQ
  | fin (q : ℚ) : EQQ
deriving DecidableEq, Repr

/-- Addition; `Infinity + x = Infinity` as in JS (no `-Infinity`/`NaN` arises
in the module). -/
def EQQ.add : EQQ → EQQ → EQQ
  | inf, _ => inf
  | _, inf => inf
  | fin a, fin b => fin (a + b)

/-- The strict comparison `a < b` of JS. -/
def EQQ.ltb : EQQ → EQQ → Bool
  | inf, _ => false
  | fin _, inf => true
  | fin a, fin b => decide (a < b)

/-- The comparison `a <= b` of JS. -/
def EQQ.leb : EQQ → EQQ → Bool
  | _, inf => true
  | inf, fin _ => false
  | fin a, fin b => decide (a ≤ b)

/-- Grid node keys: the JS module builds keys with the template
string `x,y` from the loop counters and uses them opaquely, so the pair
of coordinates is a faithful model of the key. -/
abbrev NodeKey := Nat × Nat

/-- A node record `{ x, y, weight }` of the generated graph. -/
structure GNode where
  x : Nat
  y : Nat
  weight : ℚ
deriving DecidableEq, Repr

/-- JS `Map.get`: first (and only, keys are unique) binding of the key. -/
def alookup {β : Type} : List (NodeKey × β) → NodeKey → Option β
  | [], _ => none
  | (k', v) :: rest, k => if k' = k then some v else alookup rest k

/-- JS `Map.set`: overwrite in place if present, else append (insertion
order preserved). -/
def mapSet {β : Type} : List (NodeKey × β) → NodeKey → β → List (NodeKey × β)
  | [], k, v => [(k, v)]
  | (k', v') :: rest, k, v =>
    if k' = k then (k, v) :: rest else (k', v') :: mapSet rest k v

/-- JS `Set.add`: append if absent (insertion order preserved). -/
def setAdd (l : List NodeKey) (k : NodeKey) : List NodeKey :=
  if k ∈ l then l else l ++ [k]

/-! ### The binary-heap priority queue (`class PriorityQueue`)

The JS heap is a growable array of `{ element, priority }` records; we model
it by a list indexed as a binary tree (children of `i` at `2i+1`, `2i+2`). -/
/-- A heap entry `{ element, priority }`. -/
structure HeapEntry where
  element : NodeKey
  priority : EQQ
deriving DecidableEq, Repr

/-- Default entry used for (never occurring) out-of-range array reads. -/
def dfltEntry : HeapEntry := ⟨(0, 0), EQQ.inf⟩

/-- Array read `heap[i]`. -/
def geth (l : List HeapEntry) (i : Nat) : HeapEntry := l.getD i dfltEntry

/-- Simultaneous array writes `[heap[i], heap[j]] = [heap[j], heap[i]]`. -/
def swapL (l : List HeapEntry) (i j : Nat) : List HeapEntry :=
  (l.set i (geth l j)).set j (geth l i)

/-- The `bubbleUp(index)` loop: swap the entry at `index` with its parent
while the parent has the strictly larger priority.  The loop is written
with structural recursion on a step counter so that the kernel can
evaluate it; the index strictly decreases at each swap, so `fuel = i`
steps always reach the loop's own exit. -/
def bubbleUpF : Nat → List HeapEntry → Nat → List HeapEntry
  | 0, l, _ => l
  | fuel + 1, l, i =>
    if i = 0 then l
    else
      let p := (i - 1) / 2
      if EQQ.leb (geth l p).priority (geth l i).priority then l
      else bubbleUpF fuel (swapL l p i) p

/-- `bubbleUp(index)` (see `bubbleUpF`). -/
def bubbleUp (l : List HeapEntry) (i : Nat) : List HeapEntry := bubbleUpF i l i

/-- `enqueue(element, priority)`: push then sift up from the last slot. -/
def heapEnqueue (l : List HeapEntry) (e : HeapEntry) : List HeapEntry :=
  bubbleUp (l ++ [e]) l.length

/-- One of the two child comparisons in the `bubbleDown` body: challenger
`c` replaces the current winner `s` iff `c` is in range and has the strictly
smaller priority. -/
def smallestStep (l : List HeapEntry) (s c : Nat) : Nat :=
  if c < l.length ∧ EQQ.ltb (geth l c).priority (geth l s).priority = true
  then c else s

/-- The index of the smallest among `index` and its existing children, with
the JS comparison order (left child against `index` first, then right child
against the winner). -/
def smallestIdx (l : List HeapEntry) (i : Nat) : Nat :=
  smallestStep l (smallestStep l i (2 * i + 1)) (2 * i + 2)

/-- The `bubbleDown(index)` loop: swap downwards with the smaller child
while a child is strictly smaller.  Structural recursion on a step
counter: the index strictly increases at each swap while the length is
constant, so `fuel = l.length` steps always reach the loop's own exit
(`smallest === index`). -/
def bubbleDownF : Nat → List HeapEntry → Nat → List HeapEntry
  | 0, l, _ => l
  | fuel + 1, l, i =>
    let s := smallestIdx l i
    if s = i then l
    else bubbleDownF fuel (swapL l i s) s

/-- `bubbleDown(index)` (see `bubbleDownF`). -/
def bubbleDown (l : List HeapEntry) (i : Nat) : List HeapEntry :=
  bubbleDownF l.length l i

/-- `dequeue()`: `null` on empty, pop on a singleton, otherwise replace the
root with the popped last leaf and sift down. -/
def heapDequeue (l : List HeapEntry) : Option HeapEntry × List HeapEntry :=
  match l with
  | [] => (none, [])
  | [e] => (some e, [])
  | e :: rest =>
    let last := (e :: rest).getLast (by simp)
    (some e, bubbleDown (((e :: rest).dropLast).set 0 last) 0)

/-- `isEmpty()`. -/
def heapIsEmpty (l : List HeapEntry) : Bool := l.isEmpty

/-! ### The seeded PRNG and Perlin noise (`class PerlinNoise`) -/
/-- The linear-congruential state update of `seededRandom()`:
`seed = (seed * 9301 + 49297) % 233280`. -/
def lcgNext (s : Nat) : Nat := (s * 9301 + 49297) % 233280

/-- Array read `permutation[i]` (the table always covers the indices the
noise function uses, so the default is never read). -/
def permAt (p : List Nat) (i : Nat) : Nat := p.getD i 0

/-- Array swap `[p[i], p[j]] = [p[j], p[i]]` on the permutation table. -/
def permSwap (l : List Nat) (i j : Nat) : List Nat :=
  (l.set i (l.getD j 0)).set j (l.getD i 0)

/-- `generatePermutation()`: Fisher–Yates shuffle of `0..255` driven by the
seeded PRNG (`i` from `255` down to `1`, `j = Math.floor(seededRandom() *
(i + 1))`), then the table is duplicated to length 512. -/
def generatePermutation (seed : Nat) : List Nat :=
  let st := (List.range 255).foldl
    (fun (st : Nat × List Nat) t =>
      let i : Nat := 255 - t
      let s := lcgNext st.1
      let r : ℚ := (s : ℚ) / 233280
      let j := (Rat.floor (r * (((i + 1 : Nat)) : ℚ))).toNat
      (s, permSwap st.2 i j))
    (seed, List.range 256)
  st.2 ++ st.2

/-- The quintic fade curve `t*t*t*(t*(t*6-15)+10)`. -/
def fade (t : ℚ) : ℚ := t * t * t * (t * (t * 6 - 15) + 10)

/-- Linear interpolation `a + t*(b-a)`. -/
def lerp (t a b : ℚ) : ℚ := a + t * (b - a)

/-- Gradient selection; `hash & 15` is `hash % 16`, `(h & 1) === 0` is
`h % 2 = 0`, and `(h & 2) === 0` is `h % 4 < 2` (the table entries are
natural numbers below 256). -/
def grad (hash : Nat) (x y z : ℚ) : ℚ :=
  let h := hash % 16
  let u := if h < 8 then x else y
  let v := if h < 4 then y else if h = 12 ∨ h = 14 then x else z
  (if h % 2 = 0 then u else -u) + (if h % 4 < 2 then v else -v)

/-- Classic Perlin `noise(x, y, z)`.  The module only ever calls it with
non-negative coordinates, for which `Math.floor(x) & 255` equals
`⌊x⌋.toNat % 256`. -/
def noise3 (p : List Nat) (x y z : ℚ) : ℚ :=
  let X := (Rat.floor x).toNat % 256
  let Y := (Rat.floor y).toNat % 256
  let Z := (Rat.floor z).toNat % 256
  let xf := x - (Rat.floor x : ℚ)
  let yf := y - (Rat.floor y : ℚ)
  let zf := z - (Rat.floor z : ℚ)
  let u := fade xf
  let v := fade yf
  let w := fade zf
  let A := permAt p X + Y
  let AA := permAt p A + Z
  let AB := permAt p (A + 1) + Z
  let B := permAt p (X + 1) + Y
  let BA := permAt p B + Z
  let BB := permAt p (B + 1) + Z
  lerp w
    (lerp v
      (lerp u (grad (permAt p AA) xf yf zf)
              (grad (permAt p BA) (xf - 1) yf zf))
      (lerp u (grad (permAt p AB) xf (yf - 1) zf)
              (grad (permAt p BB) (xf - 1) (yf - 1) zf)))
    (lerp v
      (lerp u (grad (permAt p (AA + 1)) xf yf (zf - 1))
              (grad (permAt p (BA + 1)) (xf - 1) yf (zf - 1)))
      (lerp u (grad (permAt p (AB + 1)) xf (yf - 1) (zf - 1))
              (grad (permAt p (BB + 1)) (xf - 1) (yf - 1) (zf - 1))))

/-- `noise(x, y)` with the default `z = 0`. -/
def noise (p : List Nat) (x y : ℚ) : ℚ := noise3 p x y 0

/-- `fractalNoise(x, y, octaves, persistence, scale)`: octave sum of noise
layers with doubling frequency and geometrically decaying amplitude,
normalised by the accumulated amplitude.  The fold state is
`(value, amplitude, frequency, maxValue)`. -/
def fractalNoise (p : List Nat) (x y : ℚ) (octaves : Nat)
    (persistence scale : ℚ) : ℚ :=
  let r := (List.range octaves).foldl
    (fun (acc : ℚ × ℚ × ℚ × ℚ) _ =>
      (acc.1 + noise p (x * acc.2.2.1) (y * acc.2.2.1) * acc.2.1,
       acc.2.1 * persistence, acc.2.2.1 * 2, acc.2.2.2 + acc.2.1))
    (0, 1, scale, 0)
  r.1 / r.2.2.2

/-! ### The terrain graph builder (`generateGraphStructure`) -/
/-- The grid height actually used: the backward-compatibility branch
(`gridHeight < 10`) reinterprets the call as the legacy square-grid form
`generateGraphStructure(gridSize, seed, detail)`, so both dimensions
become `gridWidth`. -/
def effectiveHeight (gridWidth gridHeight : Nat) : Nat :=
  if gridHeight < 10 then gridWidth else gridHeight

/-- The seed actually used: in the legacy branch the second argument (the
`gridHeight` parameter) is reinterpreted as the seed when it lies in
`[1, 1000]`. -/
def effectiveSeed (gridHeight seed : Nat) : Nat :=
  if gridHeight < 10 then
    (if 1 ≤ gridHeight ∧ gridHeight ≤ 1000 then gridHeight else seed)
  else seed

/-- The detail actually used: in the legacy branch the third argument (the
`seed` parameter) is reinterpreted as the detail. -/
def effectiveDetail (gridHeight seed : Nat) (detail : ℚ) : ℚ :=
  if gridHeight < 10 then (seed : ℚ) else detail

/-- The grid cells in generation order (`x` outer loop, `y` inner loop). -/
def gridCells (w h : Nat) : List NodeKey :=
  (List.range w).foldr
    (fun x acc => ((List.range h).map (fun y => (x, y))) ++ acc) []

/-- The first fractal-noise sample of a cell:
`fractalNoise(x, y, 4, 0.6, detail * 0.05)`. -/
def noiseValueAt (p : List Nat) (detail : ℚ) (x y : Nat) : ℚ :=
  fractalNoise p (x : ℚ) (y : ℚ) 4 (3 / 5) (detail * (1 / 20))

/-- The four-band piecewise-linear weight computed from the noise value
(lines 195–208 of the source, before the road clamp and the floor). -/
def rawWeightOfNoise (n : ℚ) : ℚ :=
  if n < -(3 / 10) then 1 / 10 + (n + 3 / 10) * (1 / 2)
  else if n < 1 / 10 then 1 / 2 + n * (5 / 2)
  else if n < 2 / 5 then 2 + (n - 1 / 10) * 10
  else 8 + (n - 2 / 5) * (2833 / 100)

/-- The road-network noise sample of a cell:
`fractalNoise(x*0.03, y*0.03, 2, 0.5, detail*0.1)`. -/
def roadNoiseAt (p : List Nat) (detail : ℚ) (x y : Nat) : ℚ :=
  fractalNoise p ((x : ℚ) * (3 / 100)) ((y : ℚ) * (3 / 100)) 2 (1 / 2)
    (detail * (1 / 10))

/-- The stored weight of a cell: band weight, clamped to at most `0.3` on
the road network (`|roadNoise| < 0.05`), then floored at `0.1`. -/
def cellWeight (p : List Nat) (detail : ℚ) (x y : Nat) : ℚ :=
  let weight := rawWeightOfNoise (noiseValueAt p detail x y)
  let weight := if |roadNoiseAt p detail x y| < 1 / 20
    then min weight (3 / 10) else weight
  max (1 / 10) weight

/-- The in-range orthogonal neighbours of `(x, y)` in JS direction order
(left, right, up, down). -/
def neighborList (w h x y : Nat) : List NodeKey :=
  [((-1 : Int), (0 : Int)), (1, 0), (0, -1), (0, 1)].filterMap
    (fun d =>
      let newX := (x : Int) + d.1
      let newY := (y : Int) + d.2
      if 0 ≤ newX ∧ newX < (w : Int) ∧ 0 ≤ newY ∧ newY < (h : Int)
      then some (newX.toNat, newY.toNat) else none)

/-- The generated graph: insertion-ordered node and edge maps. -/
structure Graph where
  nodes : List (NodeKey × GNode)
  edges : List (NodeKey × List NodeKey)

/-- `generateGraphStructure(gridWidth, gridHeight, seed, detail)` for the
four-argument numeric call shape (the only one the claims quantify over);
`gridHeight < 10` triggers the legacy square-grid reinterpretation of the
arguments. -/
def generateGraphStructure (gridWidth gridHeight seed : Nat) (detail : ℚ) :
    Graph :=
  let W := gridWidth
  let H := effectiveHeight gridWidth gridHeight
  let p := generatePermutation (effectiveSeed gridHeight seed)
  let d := effectiveDetail gridHeight seed detail
  { nodes := (gridCells W H).map
      (fun c => (c, ⟨c.1, c.2, cellWeight p d c.1 c.2⟩)),
    edges := (gridCells W H).map
      (fun c => (c, neighborList W H c.1 c.2)) }

/-! ### Path reconstruction (`reconstructGraphPath`) -/
/-- One step of the predecessor walk, `previous.get(current)`:  both "key
absent" (`undefined`) and "stored `null`" are falsy and end the JS loop, so
both collapse to `none`. -/
def predStep (previous : List (NodeKey × Option NodeKey)) (k : NodeKey) :
    Option NodeKey :=
  (alookup previous k).bind id

/-- The visit sequence of the JS walk
`while (current) { path.unshift(current); current = previous.get(current) }`,
listed first-visited-first; `fuel` bounds the number of predecessor steps
still allowed. -/
def walkAux (previous : List (NodeKey × Option NodeKey)) :
    Nat → NodeKey → List NodeKey
  | 0, k => [k]
  | n + 1, k =>
    match predStep previous k with
    | none => [k]
    | some k' => k :: walkAux previous n k'

/-- `reconstructGraphPath(previous, startKey, endKey)`.  The JS loop has no
cycle guard and diverges on a cyclic chain; the fuel `previous.length + 1`
is enough for every terminating chain (its keys are distinct and all but
the last are bound in `previous`), so on every input on which the JS
function returns at all this definition returns the same sequence. -/
def reconstructGraphPath (previous : List (NodeKey × Option NodeKey))
    (startKey endKey : NodeKey) : List NodeKey :=
  let path := (walkAux previous (previous.length + 1) endKey).reverse
  if path.head? = some startKey then path else []

/-! ### The batch search (`dijkstraGraph`) -/
/-- Node lookup `nodes.get(k)`; the searches only ever look up present
keys (an absent key would crash the JS with a `TypeError`), so a default
node stands in for the impossible `undefined`. -/
def getNode (nodes : List (NodeKey × GNode)) (k : NodeKey) : GNode :=
  (alookup nodes k).getD ⟨0, 0, 0⟩

/-- `Math.abs(a.x - b.x) + Math.abs(a.y - b.y)`. -/
def manhattanDist (a b : GNode) : Nat :=
  ((a.x : Int) - b.x).natAbs + ((a.y : Int) - b.y).natAbs

/-- The heuristic `manhattanDistance(nodeKey)`: Manhattan distance to the
goal, scaled by `0.8`. -/
def manhattanDistance (nodes : List (NodeKey × GNode)) (endNode : GNode)
    (k : NodeKey) : ℚ :=
  (manhattanDist (getNode nodes k) endNode : ℚ) * (4 / 5)

/-- The mutable state of one `dijkstraGraph` run. -/
structure DState where
  gCost : List (NodeKey × EQQ)
  fCost : List (NodeKey × EQQ)
  previous : List (NodeKey × Option NodeKey)
  visited : List NodeKey
  pq : List HeapEntry
  nodesExplored : Nat
  maxNodesToExplore : ℚ

/-- The tentative cost `gCost.get(currentKey) + movementCost *
neighborNode.weight`, with movement cost `1` for an axis-aligned step and
`1.414` otherwise. -/
def tentativeCost (nodes : List (NodeKey × GNode)) (currentNode : GNode)
    (gCur : EQQ) (neighborKey : NodeKey) : EQQ :=
  let neighborNode := getNode nodes neighborKey
  let movementCost : ℚ :=
    if currentNode.x = neighborNode.x ∨ currentNode.y = neighborNode.y
    then 1 else 1414 / 1000
  EQQ.add gCur (EQQ.fin (movementCost * neighborNode.weight))

/-- The body of the neighbour loop of `dijkstraGraph`: skip closed
neighbours and neighbours outside the initialised search radius, otherwise
relax.  A missing `gCost` entry for the current key would make the JS
tentative cost `NaN`, whose comparison is false, hence no update: the
`match` reproduces that. -/
def relaxNeighbor (nodes : List (NodeKey × GNode)) (endNode currentNode : GNode)
    (currentKey : NodeKey) (st : DState) (neighborKey : NodeKey) : DState :=
  if neighborKey ∈ st.visited then st
  else if (alookup st.gCost neighborKey).isNone then st
  else
    match alookup st.gCost currentKey, alookup st.gCost neighborKey with
    | some gCur, some gNb =>
      let tentative := tentativeCost nodes currentNode gCur neighborKey
      if EQQ.ltb tentative gNb then
        let newF := EQQ.add tentative
          (EQQ.fin (manhattanDistance nodes endNode neighborKey))
        { st with
          previous := mapSet st.previous neighborKey (some currentKey),
          gCost := mapSet st.gCost neighborKey tentative,
          fCost := mapSet st.fCost neighborKey newF,
          pq := heapEnqueue st.pq ⟨neighborKey, newF⟩ }
      else st
    | _, _ => st

/-- The `while (!pq.isEmpty() && nodesExplored < maxNodesToExplore)` loop of
`dijkstraGraph`; `fuel` dominates the number of iterations (see
`dijkstraFuel`). -/
def dijkstraLoop (nodes : List (NodeKey × GNode)) (edges : List (NodeKey × List NodeKey))
    (endKey : NodeKey) (endNode : GNode) : Nat → DState → DState
  | 0, st => st
  | fuel + 1, st =>
    if st.pq.isEmpty then st
    else if ¬ ((st.nodesExplored : ℚ) < st.maxNodesToExplore) then st
    else
      match heapDequeue st.pq with
      | (none, _) => st
      | (some entry, pq') =>
        let currentKey := entry.element
        if currentKey ∈ st.visited then
          dijkstraLoop nodes edges endKey endNode fuel { st with pq := pq' }
        else
          let st1 : DState := { st with
            pq := pq',
            visited := setAdd st.visited currentKey,
            nodesExplored := st.nodesExplored + 1 }
          if currentKey = endKey then st1
          else
            let currentNode := getNode nodes currentKey
            let tightened := min st1.maxNodesToExplore ((st1.nodesExplored : ℚ) + 100)
            let st2 : DState :=
              if manhattanDist currentNode endNode ≤ 3 ∧ 50 < st1.nodesExplored
              then { st1 with maxNodesToExplore := tightened }
              else st1
            let st3 := ((alookup edges currentKey).getD []).foldl
              (relaxNeighbor nodes endNode currentNode currentKey) st2
            dijkstraLoop nodes edges endKey endNode fuel st3

/-- A bound on the number of loop iterations: every iteration pops one
entry, entries enter the queue once at the start and otherwise only while
relaxing the neighbours of a newly closed node, each closed at most once,
so pops are at most `1 +` the total length of all connection lists.  The
bound below is strictly larger. -/
def dijkstraFuel (nodes : List (NodeKey × GNode))
    (edges : List (NodeKey × List NodeKey)) : Nat :=
  2 + nodes.length + edges.foldl (fun acc kv => acc + kv.2.length) 0

/-- The initial state of `dijkstraGraph`: costs are initialised only for
nodes within `1.5×` the start-goal Manhattan distance, then the start gets
cost `0` and is enqueued with its heuristic. -/
def dijkstraInit (startKey endKey : NodeKey)
    (nodes : List (NodeKey × GNode)) : DState :=
  let startNode := getNode nodes startKey
  let endNode := getNode nodes endKey
  let searchRadius : ℚ := (manhattanDist startNode endNode : ℚ) * (3 / 2)
  let base : DState :=
    ⟨[], [], [], [], [], 0, min 1000 ((nodes.length : ℚ) * (1 / 2))⟩
  let st0 := nodes.foldl
    (fun (st : DState) kv =>
      let node := getNode nodes kv.1
      if searchRadius < (manhattanDist node startNode : ℚ) then st
      else { st with
        gCost := mapSet st.gCost kv.1 EQQ.inf,
        fCost := mapSet st.fCost kv.1 EQQ.inf,
        previous := mapSet st.previous kv.1 none })
    base
  let fStart := EQQ.fin (manhattanDistance nodes endNode startKey)
  { st0 with
    gCost := mapSet st0.gCost startKey (EQQ.fin 0),
    fCost := mapSet st0.fCost startKey fStart,
    pq := heapEnqueue st0.pq ⟨startKey, fStart⟩ }

/-- The `{ distances, previous }` result of `dijkstraGraph`. -/
structure DijkstraResult where
  distances : List (NodeKey × EQQ)
  previous : List (NodeKey × Option NodeKey)

/-- `dijkstraGraph(startKey, endKey, nodes, edges)`. -/
def dijkstraGraph (startKey endKey : NodeKey) (nodes : List (NodeKey × GNode))
    (edges : List (NodeKey × List NodeKey)) : DijkstraResult :=
  let endNode := getNode nodes endKey
  let final := dijkstraLoop nodes edges endKey endNode
    (dijkstraFuel nodes edges) (dijkstraInit startKey endKey nodes)
  ⟨final.gCost, final.previous⟩

/-- The `{ path, distance, pathExists }` result of `findShortestGraphPath`;
`distance` is `distances.get(endKey)`, where `none` models the absent-key
`undefined` and `EQQ.inf` the value `Infinity`. -/
structure PathResult where
  path : List NodeKey
  distance : Option EQQ
  pathExists : Bool
deriving DecidableEq, Repr

/-- `findShortestGraphPath(startKey, endKey, nodes, edges)`. -/
def findShortestGraphPath (startKey endKey : NodeKey)
    (nodes : List (NodeKey × GNode)) (edges : List (NodeKey × List NodeKey)) :
    PathResult :=
  if (alookup nodes startKey).isNone ∨ (alookup nodes endKey).isNone then
    ⟨[], some EQQ.inf, false⟩
  else if startKey = endKey then
    ⟨[startKey], some (EQQ.fin 0), true⟩
  else
    let r := dijkstraGraph startKey endKey nodes edges
    let path := reconstructGraphPath r.previous startKey endKey
    ⟨path, alookup r.distances endKey, decide (0 < path.length)⟩

/-! ### The animated search (`dijkstraGraphAnimated`) -/
/-- One animation step; the three JS object shapes (`init`, `explore`,
`complete`) carry different fields. -/
inductive AnimStep where
  | init (current : NodeKey) (completed : Bool)
  | explore (current : NodeKey) (visitedCount newVisited : Nat)
      (currentPath : List NodeKey) (completed : Bool)
  | complete (current : NodeKey) (visitedCount : Nat)
      (currentPath : List NodeKey) (completed : Bool)
deriving DecidableEq, Repr

/-- The mutable state of one `dijkstraGraphAnimated` run. -/
structure AState where
  gCost : List (NodeKey × EQQ)
  fCost : List (NodeKey × EQQ)
  previous : List (NodeKey × Option NodeKey)
  visited : List NodeKey
  pq : List HeapEntry
  animationSteps : List AnimStep
  lastVisitedSize : Nat

/-- The neighbour relaxation of the animated search (no search-radius
guard; a missing `gCost` entry gives a false `NaN`/`undefined` comparison
in JS, hence no update). -/
def relaxNeighborA (nodes : List (NodeKey × GNode)) (endNode currentNode : GNode)
    (currentKey : NodeKey) (st : AState) (neighborKey : NodeKey) : AState :=
  if neighborKey ∈ st.visited then st
  else
    match alookup st.gCost currentKey, alookup st.gCost neighborKey with
    | some gCur, some gNb =>
      let tentative := tentativeCost nodes currentNode gCur neighborKey
      if EQQ.ltb tentative gNb then
        let newF := EQQ.add tentative
          (EQQ.fin (manhattanDistance nodes endNode neighborKey))
        { st with
          previous := mapSet st.previous neighborKey (some currentKey),
          gCost := mapSet st.gCost neighborKey tentative,
          fCost := mapSet st.fCost neighborKey newF,
          pq := heapEnqueue st.pq ⟨neighborKey, newF⟩ }
      else st
    | _, _ => st

/-- `MAX_ANIMATION_STEPS`. -/
def MAX_ANIMATION_STEPS : Nat := 1500

/-- The `while (!pq.isEmpty() && animationSteps.length < MAX_ANIMATION_STEPS)`
loop of `dijkstraGraphAnimated`. -/
def animLoop (nodes : List (NodeKey × GNode)) (edges : List (NodeKey × List NodeKey))
    (startKey endKey : NodeKey) (endNode : GNode) : Nat → AState → AState
  | 0, st => st
  | fuel + 1, st =>
    if st.pq.isEmpty then st
    else if ¬ (st.animationSteps.length < MAX_ANIMATION_STEPS) then st
    else
      match heapDequeue st.pq with
      | (none, _) => st
      | (some entry, pq') =>
        let currentKey := entry.element
        if currentKey ∈ st.visited then
          animLoop nodes edges startKey endKey endNode fuel { st with pq := pq' }
        else
          let visited' := setAdd st.visited currentKey
          let currentPath := reconstructGraphPath st.previous startKey currentKey
          let exploreStep := AnimStep.explore currentKey visited'.length
            (visited'.length - st.lastVisitedSize)
            (if 0 < currentPath.length then currentPath else [startKey])
            false
          let st1 : AState := { st with
            pq := pq',
            visited := visited',
            animationSteps := st.animationSteps ++ [exploreStep],
            lastVisitedSize := visited'.length }
          if currentKey = endKey then
            let completeStep :=
              AnimStep.complete currentKey visited'.length currentPath true
            { st1 with animationSteps := st1.animationSteps ++ [completeStep] }
          else
            let currentNode := getNode nodes currentKey
            let rebuiltPQ := visited'.foldl
              (fun h k => heapEnqueue h
                ⟨k, EQQ.fin (manhattanDistance nodes endNode k)⟩) []
            let st2 : AState :=
              if manhattanDist currentNode endNode ≤ 3 ∧ 50 < visited'.length
              then { st1 with pq := rebuiltPQ }
              else st1
            let st3 := ((alookup edges currentKey).getD []).foldl
              (relaxNeighborA nodes endNode currentNode currentKey) st2
            animLoop nodes edges startKey endKey endNode fuel st3

/-- A bound on the animated loop's iterations: pops are at most the total
number of enqueues, i.e. `1 +` the total connection-list length `+` one
queue rebuild of at most `nodes.length` entries per closed node. -/
def animFuel (nodes : List (NodeKey × GNode))
    (edges : List (NodeKey × List NodeKey)) : Nat :=
  2 + edges.foldl (fun acc kv => acc + kv.2.length) 0 +
    nodes.length * (1 + nodes.length)

/-- The final loop state of `dijkstraGraphAnimated(startKey, endKey, nodes,
edges)`: costs of all nodes are initialised, the start is enqueued, an
`init` step is recorded, and the loop runs. -/
def animFinalState (startKey endKey : NodeKey)
    (nodes : List (NodeKey × GNode)) (edges : List (NodeKey × List NodeKey)) :
    AState :=
  let endNode := getNode nodes endKey
  let base : AState := ⟨[], [], [], [], [], [], 0⟩
  let st0 := nodes.foldl
    (fun (st : AState) kv =>
      { st with
        gCost := mapSet st.gCost kv.1 EQQ.inf,
        fCost := mapSet st.fCost kv.1 EQQ.inf,
        previous := mapSet st.previous kv.1 none })
    base
  let fStart := EQQ.fin (manhattanDistance nodes endNode startKey)
  let st1 : AState := { st0 with
    gCost := mapSet st0.gCost startKey (EQQ.fin 0),
    fCost := mapSet st0.fCost startKey fStart,
    pq := heapEnqueue st0.pq ⟨startKey, fStart⟩,
    animationSteps := [AnimStep.init startKey false] }
  animLoop nodes edges startKey endKey endNode (animFuel nodes edges) st1

/-- `dijkstraGraphAnimated(startKey, endKey, nodes, edges)`: the recorded
animation-step sequence. -/
def dijkstraGraphAnimated (startKey endKey : NodeKey)
    (nodes : List (NodeKey × GNode)) (edges : List (NodeKey × List NodeKey)) :
    List AnimStep :=
  (animFinalState startKey endKey nodes edges).animationSteps

/-- The predecessor chain from `k` reaches a key with no stored
predecessor within `n` steps (the claims' "acyclic up to `k`" premise; on
such inputs the JS `while (current)` loop of `reconstructGraphPath`
terminates, and only on such inputs does it terminate). -/
def diesWithin (previous : List (NodeKey × Option NodeKey)) :
    Nat → NodeKey → Prop
  | 0, k => predStep previous k = none
  | n + 1, k => predStep previous k = none ∨
      ∃ k', predStep previous k = some k' ∧ diesWithin previous n k'

/-- Every predecessor link out of a key of `S` stays inside `S` and the
chain ends at a key with no predecessor (the search-loop invariant behind
the acyclicity of `previous`). -/
inductive ChainIn (previous : List (NodeKey × Option NodeKey))
    (S : List NodeKey) : NodeKey → Prop where
  | base {k : NodeKey} : predStep previous k = none → ChainIn previous S k
  | step {k k' : NodeKey} : predStep previous k = some k' → k' ∈ S →
      ChainIn previous S k' → ChainIn previous S k

/-! ### Heap invariants (for the priority-queue claim) -/
/-- The parent index `(i - 1) / 2` of a heap slot. -/
def parentIdx (i : Nat) : Nat := (i - 1) / 2

/-- The binary min-heap invariant of the JS array: every non-root entry is
at least its parent. -/
def heapInv (l : List HeapEntry) : Prop :=
  ∀ j, j < l.length → 0 < j →
    EQQ.leb (geth l (parentIdx j)).priority (geth l j).priority = true

/-- The `bubbleUp` loop invariant: the heap property may fail only on the
edge into `i`, and the parent of `i` already dominates the children of `i`. -/
def InvUp (l : List HeapEntry) (i : Nat) : Prop :=
  (∀ j, j < l.length → 0 < j → j ≠ i →
    EQQ.leb (geth l (parentIdx j)).priority (geth l j).priority = true) ∧
  (∀ j, j < l.length → 0 < i → parentIdx j = i →
    EQQ.leb (geth l (parentIdx i)).priority (geth l j).priority = true)

/-- The `bubbleDown` loop invariant: the heap property may fail only on the
edges out of `i`, and the parent of `i` already dominates the children
of `i`. -/
def InvDown (l : List HeapEntry) (i : Nat) : Prop :=
  (∀ j, j < l.length → 0 < j → parentIdx j ≠ i →
    EQQ.leb (geth l (parentIdx j)).priority (geth l j).priority = true) ∧
  (∀ j, j < l.length → 0 < i → parentIdx j = i →
    EQQ.leb (geth l (parentIdx i)).priority (geth l j).priority = true)

/-- An enqueue or dequeue call on the priority queue. -/
inductive PQOp where
  | push (k : NodeKey) (p : EQQ)
  | pop
deriving DecidableEq, Repr

/-- One call applied to the heap array (`pop` discards the returned
entry). -/
def pqStep (h : List HeapEntry) : PQOp → List HeapEntry
  | PQOp.push k p => heapEnqueue h ⟨k, p⟩
  | PQOp.pop => (heapDequeue h).2

/-- The heap array after a sequence of calls on a fresh queue. -/
def applyOps (ops : List PQOp) : List HeapEntry := ops.foldl pqStep []

/-- The two chain invariants of a search state: every predecessor link
points into the closed set, and every closed key's chain stays closed and
terminates. -/
def DInvP (previous : List (NodeKey × Option NodeKey))
    (visited : List NodeKey) : Prop :=
  (∀ k p, alookup previous k = some (some p) → p ∈ visited) ∧
  (∀ k ∈ visited, ChainIn previous visited k)

/-- The `current` of an `explore` step. -/
def exploreCurrent : AnimStep → Option NodeKey
  | AnimStep.explore c _ _ _ _ => some c
  | _ => none

/-- The `newVisited` of an `explore` step. -/
def exploreNew : AnimStep → Option Nat
  | AnimStep.explore _ _ nv _ _ => some nv
  | _ => none

/-- The full loop invariant of the animated search: the chain invariants,
`lastVisitedSize` tracking the closed-set size, and the recorded `explore`
steps having pairwise-distinct `current` keys (all closed) and
`newVisited = 1`. -/
def AInv (st : AState) : Prop :=
  DInvP st.previous st.visited ∧
  st.lastVisitedSize = st.visited.length ∧
  (∀ k ∈ st.animationSteps.filterMap exploreCurrent, k ∈ st.visited) ∧
  (st.animationSteps.filterMap exploreCurrent).Nodup ∧
  (∀ x ∈ st.animationSteps.filterMap exploreNew, x = 1)

def demoPrev : List (NodeKey × Option NodeKey) :=
  [((1, 1), some (0, 0)), ((0, 0), none)]

def demoNodes : List (NodeKey × GNode) :=
  [((0, 0), ⟨0, 0, 1⟩), ((1, 0), ⟨1, 0, 1⟩)]

def demoEdges : List (NodeKey × List NodeKey) :=
  [((0, 0), [(1, 0)]), ((1, 0), [(0, 0)])]

def demoOps : List PQOp :=
  [PQOp.push (0, 0) (EQQ.fin 3), PQOp.push (1, 1) (EQQ.fin 1),
   PQOp.push (2, 2) (EQQ.fin 2)]

def nodes33 : List (NodeKey × GNode) :=
  (gridCells 3 3).map (fun c => (c, ⟨c.1, c.2, 1⟩))

def edges33 : List (NodeKey × List NodeKey) :=
  (gridCells 3 3).map (fun c => (c, neighborList 3 3 c.1 c.2))

/-! ### Theorems -/

theorem EQQ.leb_refl (a : EQQ) : leb a a = true := by
  cases a <;> simp [leb]

theorem EQQ.leb_trans {a b c : EQQ} (h₁ : leb a b = true) (h₂ : leb b c = true) :
    leb a c = true := by
  cases a <;> cases b <;> cases c <;> simp_all [leb]
  exact le_trans h₁ h₂

theorem EQQ.ltb_iff_not_leb (a b : EQQ) : ltb a b = true ↔ ¬ leb b a = true := by
  cases a <;> cases b <;> simp [ltb, leb]

theorem EQQ.leb_of_not_ltb {a b : EQQ} (h : ¬ ltb a b = true) : leb b a = true := by
  by_contra hc
  exact h ((ltb_iff_not_leb a b).mpr hc)

theorem EQQ.leb_of_ltb {a b : EQQ} (h : ltb a b = true) : leb a b = true := by
  cases a <;> cases b <;> simp_all [ltb, leb]
  exact le_of_lt h

theorem alookup_mapSet_self {β : Type} (m : List (NodeKey × β)) (k : NodeKey) (v : β) :
    alookup (mapSet m k v) k = some v := by
  induction m with
  | nil => simp [mapSet, alookup]
  | cons hd tl ih =>
    obtain ⟨k', v'⟩ := hd
    by_cases h : k' = k <;> simp [mapSet, alookup, h, ih]

theorem alookup_mapSet_ne {β : Type} (m : List (NodeKey × β)) (k k₀ : NodeKey) (v : β)
    (h : k ≠ k₀) : alookup (mapSet m k₀ v) k = alookup m k := by
  induction m with
  | nil => simp [mapSet, alookup, Ne.symm h]
  | cons hd tl ih =>
    obtain ⟨k', v'⟩ := hd
    by_cases hk : k' = k₀
    · subst hk
      simp [mapSet, alookup, Ne.symm h]
    · simp [mapSet, alookup, hk, ih]

theorem smallestStep_cases (l : List HeapEntry) (s c : Nat) :
    smallestStep l s c = s ∨
      (smallestStep l s c = c ∧ c < l.length ∧
        EQQ.ltb (geth l c).priority (geth l s).priority = true) := by
  unfold smallestStep
  split
  · next h => exact Or.inr ⟨rfl, h.1, h.2⟩
  · exact Or.inl rfl

theorem smallestIdx_ge (l : List HeapEntry) (i : Nat) : i ≤ smallestIdx l i := by
  unfold smallestIdx
  rcases smallestStep_cases l (smallestStep l i (2 * i + 1)) (2 * i + 2) with h | h <;>
    rcases smallestStep_cases l i (2 * i + 1) with h' | h' <;> omega

theorem smallestIdx_lt_length (l : List HeapEntry) (i : Nat) (h : i < l.length) :
    smallestIdx l i < l.length := by
  unfold smallestIdx
  rcases smallestStep_cases l (smallestStep l i (2 * i + 1)) (2 * i + 2) with hh | hh <;>
    rcases smallestStep_cases l i (2 * i + 1) with h' | h' <;> omega

/-! ### Lemmas: heap array reads and writes -/
theorem length_swapL (l : List HeapEntry) (i j : Nat) :
    (swapL l i j).length = l.length := by
  simp [swapL]

theorem geth_set_self {l : List HeapEntry} {i : Nat} (e : HeapEntry)
    (h : i < l.length) : geth (l.set i e) i = e := by
  simp [geth, List.getD, List.getElem?_set_self, h]

theorem geth_set_ne {l : List HeapEntry} {i j : Nat} (e : HeapEntry)
    (h : i ≠ j) : geth (l.set i e) j = geth l j := by
  simp [geth, List.getD, List.getElem?_set_ne h]

theorem geth_swapL_fst {l : List HeapEntry} {i j : Nat} (hi : i < l.length)
    (hij : i ≠ j) : geth (swapL l i j) i = geth l j := by
  rw [swapL, geth_set_ne _ (Ne.symm hij), geth_set_self _ hi]

theorem geth_swapL_snd {l : List HeapEntry} {i j : Nat} (hj : j < l.length) :
    geth (swapL l i j) j = geth l i := by
  rw [swapL, geth_set_self]
  simpa using hj

theorem geth_swapL_other {l : List HeapEntry} {i j k : Nat} (hki : k ≠ i)
    (hkj : k ≠ j) : geth (swapL l i j) k = geth l k := by
  rw [swapL, geth_set_ne _ (Ne.symm hkj), geth_set_ne _ (Ne.symm hki)]

theorem geth_append_lt {l : List HeapEntry} {k : Nat} (e : HeapEntry)
    (h : k < l.length) : geth (l ++ [e]) k = geth l k := by
  simp [geth, List.getD, List.getElem?_append, h]

theorem geth_append_self (l : List HeapEntry) (e : HeapEntry) :
    geth (l ++ [e]) l.length = e := by
  simp [geth, List.getD]

/-! ### Lemmas: sift-up preserves the heap invariant -/
theorem parentIdx_lt {i : Nat} (h : 0 < i) : parentIdx i < i := by
  unfold parentIdx
  omega

theorem parentIdx_eq_children {i j : Nat} (h0 : 0 < j) (h : parentIdx j = i) :
    j = 2 * i + 1 ∨ j = 2 * i + 2 := by
  unfold parentIdx at h
  omega

/-- The invariant step of `bubbleUp`: a strictly smaller entry swapped with
its parent leaves the invariant holding at the parent slot. -/
theorem invUp_swap {l : List HeapEntry} {i : Nat} (hi : i < l.length)
    (h0 : i ≠ 0)
    (hlt : EQQ.ltb (geth l i).priority (geth l (parentIdx i)).priority = true)
    (hInv : InvUp l i) : InvUp (swapL l (parentIdx i) i) (parentIdx i) := by
  obtain ⟨h1, h2⟩ := hInv
  have hp0 : 0 < i := Nat.pos_of_ne_zero h0
  have hpi : parentIdx i < i := parentIdx_lt hp0
  have hple : parentIdx i < l.length := lt_trans hpi hi
  have hle : EQQ.leb (geth l i).priority (geth l (parentIdx i)).priority = true :=
    EQQ.leb_of_ltb hlt
  constructor
  · intro j hj hj0 hjp
    rw [length_swapL] at hj
    by_cases hjI : j = i
    · subst hjI
      rw [geth_swapL_snd hi, geth_swapL_fst hple (Nat.ne_of_lt hpi)]
      exact hle
    · by_cases hjc : parentIdx j = i
      · have hji : geth (swapL l (parentIdx i) i) j = geth l j :=
          geth_swapL_other hjp hjI
        rw [hji, hjc, geth_swapL_snd hi]
        exact h2 j hj hp0 hjc
      · by_cases hjpp : parentIdx j = parentIdx i
        · have hji : geth (swapL l (parentIdx i) i) j = geth l j :=
            geth_swapL_other hjp hjI
          rw [hji, hjpp, geth_swapL_fst hple (Nat.ne_of_lt hpi)]
          have hbase : EQQ.leb (geth l (parentIdx j)).priority (geth l j).priority = true :=
            h1 j hj hj0 hjI
          rw [hjpp] at hbase
          exact EQQ.leb_trans hle hbase
        · have hji : geth (swapL l (parentIdx i) i) j = geth l j :=
            geth_swapL_other hjp hjI
          have hjq : geth (swapL l (parentIdx i) i) (parentIdx j) = geth l (parentIdx j) :=
            geth_swapL_other hjpp hjc
          rw [hji, hjq]
          exact h1 j hj hj0 hjI
  · intro j hj hpp0 hjc
    rw [length_swapL] at hj
    have hgp : geth (swapL l (parentIdx i) i) (parentIdx (parentIdx i)) =
        geth l (parentIdx (parentIdx i)) := by
      have h₁ : parentIdx (parentIdx i) ≠ parentIdx i :=
        Nat.ne_of_lt (parentIdx_lt hpp0)
      have h₂ : parentIdx (parentIdx i) ≠ i :=
        Nat.ne_of_lt (lt_trans (parentIdx_lt hpp0) hpi)
      exact geth_swapL_other h₁ h₂
    have hppar : EQQ.leb (geth l (parentIdx (parentIdx i))).priority
        (geth l (parentIdx i)).priority = true :=
      h1 (parentIdx i) hple hpp0 (Nat.ne_of_lt hpi)
    by_cases hjI : j = i
    · subst hjI
      rw [hgp, geth_swapL_snd hi]
      exact hppar
    · have hj0 : 0 < j := by
        have hcopy := hpp0
        unfold parentIdx at hjc hcopy
        omega
      have hjne : j ≠ parentIdx i := by
        intro hh
        rw [hh] at hjc
        exact absurd hjc (Nat.ne_of_lt (parentIdx_lt hpp0))
      rw [hgp, geth_swapL_other hjne hjI]
      have hbase : EQQ.leb (geth l (parentIdx j)).priority (geth l j).priority = true :=
        h1 j hj hj0 hjI
      rw [hjc] at hbase
      exact EQQ.leb_trans hppar hbase

/-- Running the sift-up loop from a slot at which `InvUp` holds yields a
heap. -/
theorem bubbleUpF_heapInv : ∀ (fuel : Nat) (l : List HeapEntry) (i : Nat),
    i < l.length → i ≤ fuel → InvUp l i → heapInv (bubbleUpF fuel l i)
  | 0, l, i, _, hfuel, hInv => by
    have : i = 0 := Nat.le_zero.mp hfuel
    subst this
    intro j hj hj0
    exact hInv.1 j hj hj0 (Nat.ne_of_gt hj0)
  | fuel + 1, l, i, hi, hfuel, hInv => by
    unfold bubbleUpF
    by_cases h0 : i = 0
    · subst h0
      simp only [if_pos rfl]
      intro j hj hj0
      exact hInv.1 j hj hj0 (Nat.ne_of_gt hj0)
    · simp only [if_neg h0]
      by_cases hle : EQQ.leb (geth l ((i - 1) / 2)).priority (geth l i).priority = true
      · simp only [if_pos hle]
        intro j hj hj0
        by_cases hji : j = i
        · subst hji
          exact hle
        · exact hInv.1 j hj hj0 hji
      · simp only [if_neg hle]
        have hlt : EQQ.ltb (geth l i).priority (geth l ((i - 1) / 2)).priority = true :=
          (EQQ.ltb_iff_not_leb _ _).mpr hle
        have hstep := invUp_swap hi h0 hlt hInv
        have hlen : parentIdx i < (swapL l (parentIdx i) i).length := by
          rw [length_swapL]
          exact lt_trans (parentIdx_lt (Nat.pos_of_ne_zero h0)) hi
        have hfu : parentIdx i ≤ fuel :=
          Nat.le_of_lt_succ (lt_of_lt_of_le (parentIdx_lt (Nat.pos_of_ne_zero h0)) hfuel)
        exact bubbleUpF_heapInv fuel _ _ hlen hfu hstep

/-- Appending a fresh entry to a heap leaves `InvUp` at the new slot. -/
theorem invUp_append (l : List HeapEntry) (e : HeapEntry) (h : heapInv l) :
    InvUp (l ++ [e]) l.length := by
  constructor
  · intro j hj hj0 hjn
    simp only [List.length_append, List.length_singleton] at hj
    have hjl : j < l.length := by omega
    have hpl : parentIdx j < l.length := lt_trans (parentIdx_lt hj0) hjl
    rw [geth_append_lt _ hjl, geth_append_lt _ hpl]
    exact h j hjl hj0
  · intro j hj _ hpj
    simp only [List.length_append, List.length_singleton] at hj
    unfold parentIdx at hpj
    omega

/-- `enqueue` preserves the heap invariant. -/
theorem heapInv_heapEnqueue (l : List HeapEntry) (e : HeapEntry)
    (h : heapInv l) : heapInv (heapEnqueue l e) := by
  unfold heapEnqueue bubbleUp
  exact bubbleUpF_heapInv l.length (l ++ [e]) l.length
    (by simp) (le_refl _) (invUp_append l e h)

/-! ### Lemmas: sift-down preserves the heap invariant -/
theorem EQQ.ltb_trans {a b c : EQQ} (h₁ : EQQ.ltb a b = true)
    (h₂ : EQQ.ltb b c = true) : EQQ.ltb a c = true := by
  cases a <;> cases b <;> cases c <;> simp_all [EQQ.ltb]
  exact lt_trans h₁ h₂

theorem EQQ.ltb_of_ltb_of_leb {a b c : EQQ} (h₁ : EQQ.ltb a b = true)
    (h₂ : EQQ.leb b c = true) : EQQ.ltb a c = true := by
  cases a <;> cases b <;> cases c <;> simp_all [EQQ.ltb, EQQ.leb]
  exact lt_of_lt_of_le h₁ h₂

theorem smallestStep_eq_self {l : List HeapEntry} {s c : Nat} (hne : c ≠ s)
    (h : smallestStep l s c = s) :
    ¬ (c < l.length ∧ EQQ.ltb (geth l c).priority (geth l s).priority = true) := by
  unfold smallestStep at h
  split at h
  · exact absurd h hne
  · next hcond => exact hcond

/-- When the sift-down body stops (`smallest === index`), the entry at `i`
is no larger than its existing children. -/
theorem smallestIdx_eq_spec {l : List HeapEntry} {i : Nat}
    (h : smallestIdx l i = i) :
    ∀ c, (c = 2 * i + 1 ∨ c = 2 * i + 2) → c < l.length →
      EQQ.leb (geth l i).priority (geth l c).priority = true := by
  unfold smallestIdx at h
  have hs₁ : smallestStep l i (2 * i + 1) = i := by
    rcases smallestStep_cases l (smallestStep l i (2 * i + 1)) (2 * i + 2) with hh | hh
    · rw [h] at hh
      exact hh.symm
    · rw [h] at hh
      omega
  have hR : smallestStep l (smallestStep l i (2 * i + 1)) (2 * i + 2) = i := h
  rw [hs₁] at hR
  have hL := smallestStep_eq_self (by omega) hs₁
  have hR' := smallestStep_eq_self (by omega) hR
  intro c hc hclen
  rcases hc with hc | hc <;> subst hc
  · rcases Decidable.em
      (EQQ.ltb (geth l (2 * i + 1)).priority (geth l i).priority = true) with hx | hx
    · exact absurd ⟨hclen, hx⟩ hL
    · exact EQQ.leb_of_not_ltb hx
  · rcases Decidable.em
      (EQQ.ltb (geth l (2 * i + 2)).priority (geth l i).priority = true) with hx | hx
    · exact absurd ⟨hclen, hx⟩ hR'
    · exact EQQ.leb_of_not_ltb hx

/-- When the sift-down body swaps, the chosen child is a strictly smaller
in-range child dominating its sibling. -/
theorem smallestIdx_ne_spec {l : List HeapEntry} {i : Nat}
    (h : smallestIdx l i ≠ i) :
    i < smallestIdx l i ∧ smallestIdx l i < l.length ∧
    parentIdx (smallestIdx l i) = i ∧
    EQQ.ltb (geth l (smallestIdx l i)).priority (geth l i).priority = true ∧
    (∀ c, (c = 2 * i + 1 ∨ c = 2 * i + 2) → c < l.length →
      c ≠ smallestIdx l i →
      EQQ.leb (geth l (smallestIdx l i)).priority (geth l c).priority = true) := by
  unfold smallestIdx at h ⊢
  rcases smallestStep_cases l i (2 * i + 1) with h₁ | ⟨h₁, h₁len, h₁lt⟩
  · rw [h₁] at h ⊢
    rcases smallestStep_cases l i (2 * i + 2) with h₂ | ⟨h₂, h₂len, h₂lt⟩
    · exact absurd h₂ h
    · rw [h₂] at h ⊢
      refine ⟨by omega, h₂len, by unfold parentIdx; omega, h₂lt, ?_⟩
      intro c hc hclen hcne
      have hc1 : c = 2 * i + 1 := by omega
      subst hc1
      have hL := smallestStep_eq_self (show 2 * i + 1 ≠ i by omega) h₁
      rcases Decidable.em
        (EQQ.ltb (geth l (2 * i + 1)).priority (geth l i).priority = true) with hx | hx
      · exact absurd ⟨hclen, hx⟩ hL
      · exact EQQ.leb_of_ltb (EQQ.ltb_of_ltb_of_leb h₂lt (EQQ.leb_of_not_ltb hx))
  · rw [h₁] at h ⊢
    rcases smallestStep_cases l (2 * i + 1) (2 * i + 2) with h₂ | ⟨h₂, h₂len, h₂lt⟩
    · rw [h₂] at h ⊢
      refine ⟨by omega, h₁len, by unfold parentIdx; omega, h₁lt, ?_⟩
      intro c hc hclen hcne
      have hc2 : c = 2 * i + 2 := by omega
      subst hc2
      have hR := smallestStep_eq_self (show 2 * i + 2 ≠ 2 * i + 1 by omega) h₂
      rcases Decidable.em
        (EQQ.ltb (geth l (2 * i + 2)).priority (geth l (2 * i + 1)).priority = true)
        with hx | hx
      · exact absurd ⟨hclen, hx⟩ hR
      · exact EQQ.leb_of_not_ltb hx
    · rw [h₂] at h ⊢
      refine ⟨by omega, h₂len, by unfold parentIdx; omega,
        EQQ.ltb_trans h₂lt h₁lt, ?_⟩
      intro c hc hclen hcne
      have hc1 : c = 2 * i + 1 := by omega
      subst hc1
      exact EQQ.leb_of_ltb h₂lt

/-- The invariant step of `bubbleDown`: swapping `i` with its strictly
smaller dominating child `s` leaves `InvDown` holding at `s`. -/
theorem invDown_swap {l : List HeapEntry} {i : Nat}
    (hne : smallestIdx l i ≠ i) (hInv : InvDown l i) :
    InvDown (swapL l i (smallestIdx l i)) (smallestIdx l i) := by
  obtain ⟨h1, h2⟩ := hInv
  obtain ⟨his, hslen, hps, hlt, hsib⟩ := smallestIdx_ne_spec hne
  set s := smallestIdx l i with hs
  have hilen : i < l.length := lt_trans his hslen
  constructor
  · intro j hj hj0 hjp
    rw [length_swapL] at hj
    by_cases hjS : j = s
    · subst hjS
      rw [hps, geth_swapL_snd hslen, geth_swapL_fst hilen (Nat.ne_of_lt his)]
      exact EQQ.leb_of_ltb hlt
    · by_cases hjI : j = i
      · subst hjI
        have hpj_ne_i : parentIdx j ≠ j := Nat.ne_of_lt (parentIdx_lt hj0)
        have hpj_ne_s : parentIdx j ≠ s := Nat.ne_of_lt (lt_trans (parentIdx_lt hj0) his)
        rw [geth_swapL_fst hilen (Nat.ne_of_lt his),
          geth_swapL_other hpj_ne_i hpj_ne_s]
        exact h2 s hslen hj0 hps
      · by_cases hjc : parentIdx j = i
        · rw [hjc, geth_swapL_fst hilen (Nat.ne_of_lt his),
            geth_swapL_other hjI hjS]
          exact hsib j (parentIdx_eq_children hj0 hjc) hj hjS
        · have hgj : geth (swapL l i s) j = geth l j := geth_swapL_other hjI hjS
          have hgp : geth (swapL l i s) (parentIdx j) = geth l (parentIdx j) :=
            geth_swapL_other hjc hjp
          rw [hgj, hgp]
          exact h1 j hj hj0 hjc
  · intro j hj hs0 hjc
    rw [length_swapL] at hj
    have hj0 : 0 < j := by
      unfold parentIdx at hjc
      omega
    have hjgt : s < j := by
      have hplt := parentIdx_lt hj0
      rw [hjc] at hplt
      exact hplt
    have hjne_i : j ≠ i := Nat.ne_of_gt (lt_trans his hjgt)
    have hjne_s : j ≠ s := Nat.ne_of_gt hjgt
    rw [hps, geth_swapL_fst hilen (Nat.ne_of_lt his),
      geth_swapL_other hjne_i hjne_s]
    have hjcs : parentIdx j ≠ i := by
      rw [hjc]
      exact Nat.ne_of_gt his
    have := h1 j hj hj0 hjcs
    rw [hjc] at this
    exact this

/-- Running the sift-down loop from a slot at which `InvDown` holds yields
a heap, given fuel at least `l.length - i`. -/
theorem bubbleDownF_heapInv : ∀ (fuel : Nat) (l : List HeapEntry) (i : Nat),
    l.length - i ≤ fuel → InvDown l i → heapInv (bubbleDownF fuel l i)
  | 0, l, i, hfuel, hInv => by
    show heapInv l
    intro j hj hj0
    by_cases hjc : parentIdx j = i
    · exfalso
      have := parentIdx_eq_children hj0 hjc
      omega
    · exact hInv.1 j hj hj0 hjc
  | fuel + 1, l, i, hfuel, hInv => by
    unfold bubbleDownF
    dsimp only
    by_cases hstop : smallestIdx l i = i
    · simp only [if_pos hstop]
      intro j hj hj0
      by_cases hjc : parentIdx j = i
      · have hchild := parentIdx_eq_children hj0 hjc
        rw [hjc]
        exact smallestIdx_eq_spec hstop j hchild hj
      · exact hInv.1 j hj hj0 hjc
    · simp only [if_neg hstop]
      obtain ⟨his, hslen, _, _, _⟩ := smallestIdx_ne_spec hstop
      have hstep := invDown_swap hstop hInv
      have hfu : (swapL l i (smallestIdx l i)).length - smallestIdx l i ≤ fuel := by
        rw [length_swapL]
        omega
      exact bubbleDownF_heapInv fuel _ _ hfu hstep

/-! ### Lemmas: dequeue preserves the heap invariant -/
theorem geth_dropLast {l : List HeapEntry} {k : Nat} (h : k < l.length - 1) :
    geth l.dropLast k = geth l k := by
  have hk : k < l.length := by omega
  simp [geth, List.getD, List.getElem?_dropLast, h, List.getElem?_eq_getElem hk]

/-- `dequeue` preserves the heap invariant. -/
theorem heapInv_heapDequeue (l : List HeapEntry) (h : heapInv l) :
    heapInv (heapDequeue l).2 := by
  match l with
  | [] =>
    intro j hj hj0
    simp [heapDequeue] at hj
  | [e] =>
    intro j hj hj0
    simp [heapDequeue] at hj
  | e :: b :: t =>
    show heapInv (bubbleDownF _ _ 0)
    apply bubbleDownF_heapInv
    · exact le_refl _
    · constructor
      · intro j hj hj0 hjp
        have hp0 : 0 < parentIdx j := Nat.pos_of_ne_zero hjp
        have hlen : ((e :: b :: t).dropLast.set 0
            ((e :: b :: t).getLast (by simp))).length = (e :: b :: t).length - 1 := by
          simp
        rw [hlen] at hj
        have hgj : geth ((e :: b :: t).dropLast.set 0
            ((e :: b :: t).getLast (by simp))) j = geth (e :: b :: t) j := by
          rw [geth_set_ne _ (Nat.ne_of_lt hj0)]
          exact geth_dropLast (by omega)
        have hgp : geth ((e :: b :: t).dropLast.set 0
            ((e :: b :: t).getLast (by simp))) (parentIdx j) =
            geth (e :: b :: t) (parentIdx j) := by
          rw [geth_set_ne _ (Nat.ne_of_lt hp0)]
          exact geth_dropLast (by
            have := parentIdx_lt hj0
            omega)
        rw [hgj, hgp]
        exact h j (by omega) hj0
      · intro j hj hz hjp
        exact absurd hz (lt_irrefl 0)

/-! ### Lemmas: the heap operations permute the array contents -/
theorem perm_set_get : ∀ (t : List HeapEntry) (m : Nat), m < t.length →
    ∀ x, List.Perm (geth t m :: t.set m x) (x :: t)
  | [], m, hm, x => by simp at hm
  | y :: s, 0, hm, x => by
    simp only [geth, List.getD, List.getElem?_cons_zero, Option.getD_some, List.set]
    exact List.Perm.swap x y s
  | y :: s, m + 1, hm, x => by
    have hms : m < s.length := by simpa using hm
    have hy : geth (y :: s) (m + 1) = geth s m := by
      simp [geth, List.getD]
    rw [hy]
    show List.Perm (geth s m :: y :: s.set m x) (x :: y :: s)
    exact (List.Perm.swap y (geth s m) (s.set m x)).trans
      ((List.Perm.cons y (perm_set_get s m hms x)).trans (List.Perm.swap x y s))

theorem swapL_perm : ∀ (l : List HeapEntry) (i j : Nat), i < l.length →
    j < l.length → List.Perm (swapL l i j) l
  | [], i, j, hi, _ => by simp at hi
  | x :: t, 0, 0, _, _ => by
    simp only [swapL, geth, List.getD, List.getElem?_cons_zero, Option.getD_some,
      List.set]
    exact List.Perm.refl _
  | x :: t, 0, m + 1, hi, hj => by
    have hmt : m < t.length := by simpa using hj
    show List.Perm (((x :: t).set 0 (geth (x :: t) (m + 1))).set (m + 1)
      (geth (x :: t) 0)) (x :: t)
    have h1 : geth (x :: t) (m + 1) = geth t m := by simp [geth, List.getD]
    have h2 : geth (x :: t) 0 = x := by simp [geth, List.getD]
    rw [h1, h2]
    show List.Perm (geth t m :: t.set m x) (x :: t)
    exact perm_set_get t m hmt x
  | x :: t, a + 1, 0, hi, hj => by
    have hat : a < t.length := by simpa using hi
    have h1 : geth (x :: t) (a + 1) = geth t a := by simp [geth, List.getD]
    have h2 : geth (x :: t) 0 = x := by simp [geth, List.getD]
    show List.Perm (((x :: t).set (a + 1) (geth (x :: t) 0)).set 0
      (geth (x :: t) (a + 1))) (x :: t)
    rw [h1, h2]
    show List.Perm (geth t a :: t.set a x) (x :: t)
    exact perm_set_get t a hat x
  | x :: t, a + 1, b + 1, hi, hj => by
    have hat : a < t.length := by simpa using hi
    have hbt : b < t.length := by simpa using hj
    have h1 : geth (x :: t) (b + 1) = geth t b := by simp [geth, List.getD]
    have h2 : geth (x :: t) (a + 1) = geth t a := by simp [geth, List.getD]
    show List.Perm (((x :: t).set (a + 1) (geth (x :: t) (b + 1))).set (b + 1)
      (geth (x :: t) (a + 1))) (x :: t)
    rw [h1, h2]
    show List.Perm (x :: swapL t a b) (x :: t)
    exact List.Perm.cons x (swapL_perm t a b hat hbt)

theorem bubbleUpF_perm : ∀ (fuel : Nat) (l : List HeapEntry) (i : Nat),
    i < l.length → List.Perm (bubbleUpF fuel l i) l
  | 0, l, i, _ => List.Perm.refl l
  | fuel + 1, l, i, hi => by
    unfold bubbleUpF
    by_cases h0 : i = 0
    · simp only [if_pos h0]
      exact List.Perm.refl l
    · simp only [if_neg h0]
      by_cases hle : EQQ.leb (geth l ((i - 1) / 2)).priority (geth l i).priority = true
      · simp only [if_pos hle]
        exact List.Perm.refl l
      · simp only [if_neg hle]
        have hp : (i - 1) / 2 < l.length :=
          lt_trans (parentIdx_lt (Nat.pos_of_ne_zero h0)) hi
        have hrec := bubbleUpF_perm fuel (swapL l ((i - 1) / 2) i) ((i - 1) / 2)
          (by rw [length_swapL]; exact hp)
        exact hrec.trans (swapL_perm l _ _ hp hi)

theorem bubbleDownF_perm : ∀ (fuel : Nat) (l : List HeapEntry) (i : Nat),
    List.Perm (bubbleDownF fuel l i) l
  | 0, l, i => List.Perm.refl l
  | fuel + 1, l, i => by
    unfold bubbleDownF
    dsimp only
    by_cases hstop : smallestIdx l i = i
    · simp only [if_pos hstop]
      exact List.Perm.refl l
    · simp only [if_neg hstop]
      obtain ⟨his, hslen, _, _, _⟩ := smallestIdx_ne_spec hstop
      have hrec := bubbleDownF_perm fuel (swapL l i (smallestIdx l i)) (smallestIdx l i)
      exact hrec.trans (swapL_perm l _ _ (lt_trans his hslen) hslen)

/-- The dequeued entry together with the remaining heap is a permutation
of the original heap contents ("dequeue removes the returned entry"). -/
theorem heapDequeue_perm (l : List HeapEntry) (ent : HeapEntry)
    (h' : List HeapEntry) (h : heapDequeue l = (some ent, h')) :
    List.Perm (ent :: h') l := by
  match l with
  | [] => simp [heapDequeue] at h
  | [a] =>
    simp only [heapDequeue, Prod.mk.injEq, Option.some.injEq] at h
    rw [← h.1, ← h.2]
  | a :: b :: t =>
    have hred : heapDequeue (a :: b :: t) =
        (some a, bubbleDown (((a :: b :: t).dropLast).set 0
          ((a :: b :: t).getLast (by simp))) 0) := rfl
    rw [hred] at h
    have hfst : a = ent := by
      have := congrArg Prod.fst h
      simpa using this
    have hsnd : h' = bubbleDown (((a :: b :: t).dropLast).set 0
        ((a :: b :: t).getLast (by simp))) 0 := by
      have := congrArg Prod.snd h
      simpa using this.symm
    rw [← hfst, hsnd]
    apply List.Perm.cons a
    unfold bubbleDown
    have hperm := bubbleDownF_perm
      (((a :: b :: t).dropLast.set 0 ((a :: b :: t).getLast (by simp))).length)
      ((a :: b :: t).dropLast.set 0 ((a :: b :: t).getLast (by simp))) 0
    apply hperm.trans
    have hlast : (a :: b :: t).getLast (by simp) = (b :: t).getLast (by simp) := by
      simp [List.getLast_cons]
    have hdrop : (a :: b :: t).dropLast = a :: (b :: t).dropLast := rfl
    rw [hdrop, hlast]
    show List.Perm ((b :: t).getLast (by simp) :: (b :: t).dropLast) (b :: t)
    have hsplit : (b :: t).dropLast ++ [(b :: t).getLast (by simp)] = b :: t :=
      List.dropLast_append_getLast (by simp)
    have hstep : List.Perm ((b :: t).getLast (by simp) :: (b :: t).dropLast)
        ((b :: t).dropLast ++ [(b :: t).getLast (by simp)]) :=
      (List.perm_append_singleton _ _).symm
    rw [hsplit] at hstep
    exact hstep

/-! ### Lemmas: the heap root is minimal -/
theorem heapInv_root_le (l : List HeapEntry) (h : heapInv l) :
    ∀ j, j < l.length →
      EQQ.leb (geth l 0).priority (geth l j).priority = true := by
  intro j
  induction j using Nat.strong_induction_on with
  | _ j ih =>
    intro hj
    rcases Nat.eq_zero_or_pos j with hj0 | hj0
    · subst hj0
      exact EQQ.leb_refl _
    · have hp := parentIdx_lt hj0
      have hroot := ih (parentIdx j) hp (lt_trans hp hj)
      exact EQQ.leb_trans hroot (h j hj hj0)

theorem heapInv_root_min (l : List HeapEntry) (h : heapInv l) :
    ∀ x ∈ l, EQQ.leb (geth l 0).priority x.priority = true := by
  intro x hx
  obtain ⟨i, hget⟩ := List.mem_iff_get.mp hx
  have hle := heapInv_root_le l h i.1 i.2
  have hgi : geth l i.1 = l.get i := by
    simp [geth, List.getD, List.getElem?_eq_getElem i.2]
  rw [hgi, hget] at hle
  exact hle

/-! ### The priority-queue claim -/
theorem applyOps_heapInv (ops : List PQOp) : heapInv (applyOps ops) := by
  suffices hgen : ∀ (ops : List PQOp) (h : List HeapEntry), heapInv h →
      heapInv (ops.foldl pqStep h) by
    apply hgen
    intro j hj hj0
    simp at hj
  intro ops
  induction ops with
  | nil => intro h hh; exact hh
  | cons op rest ih =>
    intro h hh
    apply ih
    cases op with
    | push k p => exact heapInv_heapEnqueue h ⟨k, p⟩ hh
    | pop => exact heapInv_heapDequeue h hh

theorem heapDequeue_shape (l : List HeapEntry) (h : l ≠ []) :
    ∃ h', heapDequeue l = (some (geth l 0), h') := by
  match l with
  | [] => exact absurd rfl h
  | [a] => exact ⟨[], rfl⟩
  | a :: b :: t => exact ⟨_, rfl⟩

/-! ### Lemmas: the predecessor walk -/
theorem walkAux_head (previous : List (NodeKey × Option NodeKey))
    (fuel : Nat) (k : NodeKey) :
    (walkAux previous fuel k).head? = some k := by
  cases fuel with
  | zero => rfl
  | succ n =>
    unfold walkAux
    cases predStep previous k <;> rfl

theorem walkAux_ne_nil (previous : List (NodeKey × Option NodeKey))
    (fuel : Nat) (k : NodeKey) : walkAux previous fuel k ≠ [] := by
  intro hnil
  have := walkAux_head previous fuel k
  rw [hnil] at this
  simp at this

theorem diesWithin_mono (previous : List (NodeKey × Option NodeKey)) :
    ∀ {n m : Nat} {k : NodeKey}, diesWithin previous n k → n ≤ m →
      diesWithin previous m k := by
  intro n
  induction n with
  | zero =>
    intro m k hd hle
    cases m with
    | zero => exact hd
    | succ m => exact Or.inl hd
  | succ n ih =>
    intro m k hd hle
    cases m with
    | zero => omega
    | succ m =>
      rcases hd with hd | ⟨k', hk', hd⟩
      · exact Or.inl hd
      · exact Or.inr ⟨k', hk', ih hd (by omega)⟩

theorem walkAux_stable (previous : List (NodeKey × Option NodeKey)) :
    ∀ {n : Nat} {k : NodeKey}, diesWithin previous n k →
      ∀ m, n ≤ m → walkAux previous m k = walkAux previous n k := by
  intro n
  induction n with
  | zero =>
    intro k hd m _
    cases m with
    | zero => rfl
    | succ m =>
      unfold walkAux
      rw [show predStep previous k = none from hd]
  | succ n ih =>
    intro k hd m hle
    cases m with
    | zero => omega
    | succ m =>
      rcases hd with hd | ⟨k', hk', hd⟩
      · unfold walkAux
        rw [hd]
      · unfold walkAux
        rw [hk']
        dsimp only
        rw [ih hd m (by omega)]

theorem chainIn_diesWithin {previous : List (NodeKey × Option NodeKey)}
    {S : List NodeKey} {k : NodeKey} (h : ChainIn previous S k) :
    ∃ n, diesWithin previous n k := by
  induction h with
  | base hnone => exact ⟨0, hnone⟩
  | step hsome hmem hrec ih =>
    obtain ⟨n, hn⟩ := ih
    exact ⟨n + 1, Or.inr ⟨_, hsome, hn⟩⟩

theorem chainIn_mono {previous : List (NodeKey × Option NodeKey)}
    {S S' : List NodeKey} (hsub : ∀ x ∈ S, x ∈ S') {k : NodeKey}
    (h : ChainIn previous S k) : ChainIn previous S' k := by
  induction h with
  | base hnone => exact ChainIn.base hnone
  | step hsome hmem hrec ih => exact ChainIn.step hsome (hsub _ hmem) ih

theorem predStep_mapSet_ne (previous : List (NodeKey × Option NodeKey))
    (k k₀ : NodeKey) (v : Option NodeKey) (h : k ≠ k₀) :
    predStep (mapSet previous k₀ v) k = predStep previous k := by
  unfold predStep
  rw [alookup_mapSet_ne previous k k₀ v h]

theorem chainIn_mapSet {previous : List (NodeKey × Option NodeKey)}
    {S : List NodeKey} {k₀ : NodeKey} {v : Option NodeKey}
    (hout : k₀ ∉ S) {k : NodeKey} (hk : k ∈ S) (h : ChainIn previous S k) :
    ChainIn (mapSet previous k₀ v) S k := by
  induction h with
  | @base k hnone =>
    exact ChainIn.base (by
      rw [predStep_mapSet_ne _ _ _ _ (fun he => hout (by rw [← he]; exact hk))]
      exact hnone)
  | @step k k' hsome hmem hrec ih =>
    exact ChainIn.step (by
      rw [predStep_mapSet_ne _ _ _ _ (fun he => hout (by rw [← he]; exact hk))]
      exact hsome) hmem (ih hmem)

theorem mem_setAdd_self (l : List NodeKey) (k : NodeKey) : k ∈ setAdd l k := by
  unfold setAdd
  split
  · assumption
  · simp

theorem mem_setAdd_of_mem {l : List NodeKey} {x : NodeKey} (k : NodeKey)
    (h : x ∈ l) : x ∈ setAdd l k := by
  unfold setAdd
  split
  · exact h
  · simp [h]

/-! ### Lemmas: the searches produce acyclic predecessor maps -/
theorem mem_setAdd_cases {l : List NodeKey} {x k : NodeKey}
    (h : x ∈ setAdd l k) : x ∈ l ∨ x = k := by
  unfold setAdd at h
  split at h
  · exact Or.inl h
  · rcases List.mem_append.mp h with h | h
    · exact Or.inl h
    · simp at h
      exact Or.inr h

theorem predStep_some {previous : List (NodeKey × Option NodeKey)}
    {k p : NodeKey} (h : predStep previous k = some p) :
    alookup previous k = some (some p) := by
  unfold predStep at h
  cases ha : alookup previous k with
  | none => rw [ha] at h; simp at h
  | some v =>
    cases v with
    | none => rw [ha] at h; simp at h
    | some q =>
      rw [ha] at h
      simp at h
      rw [h]

theorem dinvP_total {previous : List (NodeKey × Option NodeKey)}
    {visited : List NodeKey} (hinv : DInvP previous visited) (k : NodeKey) :
    ∃ n, diesWithin previous n k := by
  cases hpred : predStep previous k with
  | none => exact ⟨0, hpred⟩
  | some p =>
    have hp : p ∈ visited := hinv.1 k p (predStep_some hpred)
    obtain ⟨n, hn⟩ := chainIn_diesWithin (hinv.2 p hp)
    exact ⟨n + 1, Or.inr ⟨p, hpred, hn⟩⟩

theorem dinvP_update {previous : List (NodeKey × Option NodeKey)}
    {visited : List NodeKey} {nb cur : NodeKey}
    (hnb : nb ∉ visited) (hcur : cur ∈ visited)
    (hinv : DInvP previous visited) :
    DInvP (mapSet previous nb (some cur)) visited := by
  constructor
  · intro k p hk
    by_cases hknb : k = nb
    · subst hknb
      rw [alookup_mapSet_self] at hk
      have : p = cur := by simpa using hk.symm
      rw [this]
      exact hcur
    · rw [alookup_mapSet_ne _ _ _ _ hknb] at hk
      exact hinv.1 k p hk
  · intro k hk
    exact chainIn_mapSet hnb hk (hinv.2 k hk)

theorem dinvP_close {previous : List (NodeKey × Option NodeKey)}
    {visited : List NodeKey} (cur : NodeKey)
    (hinv : DInvP previous visited) :
    DInvP previous (setAdd visited cur) := by
  constructor
  · intro k p hk
    exact mem_setAdd_of_mem cur (hinv.1 k p hk)
  · intro k hk
    rcases mem_setAdd_cases hk with hold | hnew
    · exact chainIn_mono (fun x hx => mem_setAdd_of_mem cur hx) (hinv.2 k hold)
    · subst hnew
      cases hpred : predStep previous k with
      | none => exact ChainIn.base hpred
      | some p =>
        have hp : p ∈ visited := hinv.1 k p (predStep_some hpred)
        exact ChainIn.step hpred (mem_setAdd_of_mem k hp)
          (chainIn_mono (fun x hx => mem_setAdd_of_mem k hx) (hinv.2 p hp))

theorem relaxNeighbor_dinv (nodes : List (NodeKey × GNode))
    (endNode currentNode : GNode) (currentKey : NodeKey) (st : DState)
    (nb : NodeKey) (hcur : currentKey ∈ st.visited)
    (hinv : DInvP st.previous st.visited) :
    DInvP (relaxNeighbor nodes endNode currentNode currentKey st nb).previous
      (relaxNeighbor nodes endNode currentNode currentKey st nb).visited ∧
    (relaxNeighbor nodes endNode currentNode currentKey st nb).visited =
      st.visited := by
  unfold relaxNeighbor
  by_cases hnb : nb ∈ st.visited
  · rw [if_pos hnb]
    exact ⟨hinv, rfl⟩
  · rw [if_neg hnb]
    by_cases hnone : (alookup st.gCost nb).isNone = true
    · rw [if_pos hnone]
      exact ⟨hinv, rfl⟩
    · rw [if_neg hnone]
      cases hga : alookup st.gCost currentKey with
      | none => exact ⟨hinv, rfl⟩
      | some gc =>
        cases hgb : alookup st.gCost nb with
        | none => exact ⟨hinv, rfl⟩
        | some gb =>
          dsimp only
          by_cases hlt : EQQ.ltb (tentativeCost nodes currentNode gc nb) gb = true
          · rw [if_pos hlt]
            exact ⟨dinvP_update hnb hcur hinv, rfl⟩
          · rw [if_neg hlt]
            exact ⟨hinv, rfl⟩

theorem relaxFold_dinv (nodes : List (NodeKey × GNode))
    (endNode currentNode : GNode) (currentKey : NodeKey) :
    ∀ (conns : List NodeKey) (st : DState), currentKey ∈ st.visited →
    DInvP st.previous st.visited →
    DInvP (conns.foldl (relaxNeighbor nodes endNode currentNode currentKey) st).previous
      (conns.foldl (relaxNeighbor nodes endNode currentNode currentKey) st).visited ∧
    (conns.foldl (relaxNeighbor nodes endNode currentNode currentKey) st).visited =
      st.visited := by
  intro conns
  induction conns with
  | nil => intro st hcur hinv; exact ⟨hinv, rfl⟩
  | cons c cs ih =>
    intro st hcur hinv
    simp only [List.foldl_cons]
    obtain ⟨hinv', hvis⟩ :=
      relaxNeighbor_dinv nodes endNode currentNode currentKey st c hcur hinv
    have hcur' : currentKey ∈
        (relaxNeighbor nodes endNode currentNode currentKey st c).visited := by
      rw [hvis]; exact hcur
    obtain ⟨hrec, hrecvis⟩ := ih _ hcur' hinv'
    exact ⟨hrec, by rw [hrecvis, hvis]⟩

theorem dijkstraLoop_dinv (nodes : List (NodeKey × GNode))
    (edges : List (NodeKey × List NodeKey)) (endKey : NodeKey)
    (endNode : GNode) :
    ∀ (fuel : Nat) (st : DState), DInvP st.previous st.visited →
    DInvP (dijkstraLoop nodes edges endKey endNode fuel st).previous
      (dijkstraLoop nodes edges endKey endNode fuel st).visited
  | 0, st, hinv => hinv
  | fuel + 1, st, hinv => by
    unfold dijkstraLoop
    by_cases hemp : st.pq.isEmpty = true
    · rw [if_pos hemp]
      exact hinv
    · rw [if_neg hemp]
      by_cases hcap : ¬ ((st.nodesExplored : ℚ) < st.maxNodesToExplore)
      · rw [if_pos hcap]
        exact hinv
      · rw [if_neg hcap]
        rcases hdq : heapDequeue st.pq with ⟨ofst, pq'⟩
        cases ofst with
        | none => exact hinv
        | some entry =>
          dsimp only
          by_cases hvis : entry.element ∈ st.visited
          · rw [if_pos hvis]
            exact dijkstraLoop_dinv nodes edges endKey endNode fuel _ hinv
          · rw [if_neg hvis]
            by_cases hgoal : entry.element = endKey
            · rw [if_pos hgoal]
              exact dinvP_close _ hinv
            · rw [if_neg hgoal]
              apply dijkstraLoop_dinv
              have h1 : DInvP st.previous (setAdd st.visited entry.element) :=
                dinvP_close _ hinv
              have hcur : entry.element ∈ setAdd st.visited entry.element :=
                mem_setAdd_self _ _
              by_cases hnear : manhattanDist (getNode nodes entry.element) endNode ≤ 3 ∧
                  50 < st.nodesExplored + 1
              · rw [if_pos hnear]
                refine (relaxFold_dinv nodes endNode (getNode nodes entry.element)
                  entry.element ((alookup edges entry.element).getD []) _ ?_ ?_).1
                · exact mem_setAdd_self _ _
                · exact h1
              · rw [if_neg hnear]
                refine (relaxFold_dinv nodes endNode (getNode nodes entry.element)
                  entry.element ((alookup edges entry.element).getD []) _ ?_ ?_).1
                · exact mem_setAdd_self _ _
                · exact h1

theorem setAdd_length_not_mem {l : List NodeKey} {k : NodeKey} (h : k ∉ l) :
    (setAdd l k).length = l.length + 1 := by
  unfold setAdd
  rw [if_neg h]
  simp

theorem relaxNeighborA_ainv (nodes : List (NodeKey × GNode))
    (endNode currentNode : GNode) (currentKey : NodeKey) (st : AState)
    (nb : NodeKey) (hcur : currentKey ∈ st.visited) (hinv : AInv st) :
    AInv (relaxNeighborA nodes endNode currentNode currentKey st nb) ∧
    (relaxNeighborA nodes endNode currentNode currentKey st nb).visited =
      st.visited ∧
    (relaxNeighborA nodes endNode currentNode currentKey st nb).animationSteps =
      st.animationSteps := by
  unfold relaxNeighborA
  by_cases hnb : nb ∈ st.visited
  · rw [if_pos hnb]
    exact ⟨hinv, rfl, rfl⟩
  · rw [if_neg hnb]
    cases hga : alookup st.gCost currentKey with
    | none => exact ⟨hinv, rfl, rfl⟩
    | some gc =>
      cases hgb : alookup st.gCost nb with
      | none => exact ⟨hinv, rfl, rfl⟩
      | some gb =>
        dsimp only
        by_cases hlt : EQQ.ltb (tentativeCost nodes currentNode gc nb) gb = true
        · rw [if_pos hlt]
          obtain ⟨hd, hrest⟩ := hinv
          exact ⟨⟨dinvP_update hnb hcur hd, hrest⟩, rfl, rfl⟩
        · rw [if_neg hlt]
          exact ⟨hinv, rfl, rfl⟩

theorem relaxFoldA_ainv (nodes : List (NodeKey × GNode))
    (endNode currentNode : GNode) (currentKey : NodeKey) :
    ∀ (conns : List NodeKey) (st : AState), currentKey ∈ st.visited →
    AInv st →
    AInv (conns.foldl (relaxNeighborA nodes endNode currentNode currentKey) st) ∧
    (conns.foldl (relaxNeighborA nodes endNode currentNode currentKey) st).visited =
      st.visited := by
  intro conns
  induction conns with
  | nil => intro st hcur hinv; exact ⟨hinv, rfl⟩
  | cons c cs ih =>
    intro st hcur hinv
    simp only [List.foldl_cons]
    obtain ⟨hinv', hvis, hsteps⟩ :=
      relaxNeighborA_ainv nodes endNode currentNode currentKey st c hcur hinv
    have hcur' : currentKey ∈
        (relaxNeighborA nodes endNode currentNode currentKey st c).visited := by
      rw [hvis]; exact hcur
    obtain ⟨hrec, hrecvis⟩ := ih _ hcur' hinv'
    exact ⟨hrec, by rw [hrecvis, hvis]⟩

theorem filterMapCur_concat_explore (steps : List AnimStep) (c : NodeKey)
    (vc nv : Nat) (p : List NodeKey) (cm : Bool) :
    (steps ++ [AnimStep.explore c vc nv p cm]).filterMap exploreCurrent =
      steps.filterMap exploreCurrent ++ [c] := by
  simp [List.filterMap_append, exploreCurrent]

theorem filterMapCur_concat_complete (steps : List AnimStep) (c : NodeKey)
    (vc : Nat) (p : List NodeKey) (cm : Bool) :
    (steps ++ [AnimStep.complete c vc p cm]).filterMap exploreCurrent =
      steps.filterMap exploreCurrent := by
  simp [List.filterMap_append, exploreCurrent]

theorem filterMapNew_concat_explore (steps : List AnimStep) (c : NodeKey)
    (vc nv : Nat) (p : List NodeKey) (cm : Bool) :
    (steps ++ [AnimStep.explore c vc nv p cm]).filterMap exploreNew =
      steps.filterMap exploreNew ++ [nv] := by
  simp [List.filterMap_append, exploreNew]

theorem filterMapNew_concat_complete (steps : List AnimStep) (c : NodeKey)
    (vc : Nat) (p : List NodeKey) (cm : Bool) :
    (steps ++ [AnimStep.complete c vc p cm]).filterMap exploreNew =
      steps.filterMap exploreNew := by
  simp [List.filterMap_append, exploreNew]

/-- The key invariant step when a fresh node is closed and its `explore`
step (and possibly a `complete` step) is recorded. -/
theorem ainv_close (st : AState) (ck : NodeKey) (pq' : List HeapEntry)
    (path : List NodeKey) (hvis : ck ∉ st.visited) (hinv : AInv st) :
    AInv { st with
      pq := pq',
      visited := setAdd st.visited ck,
      animationSteps := st.animationSteps ++
        [AnimStep.explore ck (setAdd st.visited ck).length
          ((setAdd st.visited ck).length - st.lastVisitedSize) path false],
      lastVisitedSize := (setAdd st.visited ck).length } := by
  obtain ⟨hd, hlast, hsub, hnodup, hnew⟩ := hinv
  refine ⟨dinvP_close ck hd, rfl, ?_, ?_, ?_⟩
  · intro k hk
    rw [filterMapCur_concat_explore] at hk
    rcases List.mem_append.mp hk with hk | hk
    · exact mem_setAdd_of_mem ck (hsub k hk)
    · simp at hk
      rw [hk]
      exact mem_setAdd_self _ _
  · rw [filterMapCur_concat_explore]
    rw [List.nodup_append]
    refine ⟨hnodup, List.nodup_singleton ck, ?_⟩
    intro x hx hxck
    simp at hxck
    rw [hxck] at hx
    exact hvis (hsub ck hx)
  · intro x hx
    rw [filterMapNew_concat_explore] at hx
    rcases List.mem_append.mp hx with hx | hx
    · exact hnew x hx
    · simp at hx
      rw [hx, setAdd_length_not_mem hvis, hlast]
      omega

theorem ainv_complete (st : AState) (ck : NodeKey) (vc : Nat)
    (path : List NodeKey) (hinv : AInv st) :
    AInv { st with
      animationSteps := st.animationSteps ++ [AnimStep.complete ck vc path true] } := by
  obtain ⟨hd, hlast, hsub, hnodup, hnew⟩ := hinv
  refine ⟨hd, hlast, ?_, ?_, ?_⟩
  · intro k hk
    rw [filterMapCur_concat_complete] at hk
    exact hsub k hk
  · rw [filterMapCur_concat_complete]
    exact hnodup
  · intro x hx
    rw [filterMapNew_concat_complete] at hx
    exact hnew x hx

theorem animLoop_ainv (nodes : List (NodeKey × GNode))
    (edges : List (NodeKey × List NodeKey)) (startKey endKey : NodeKey)
    (endNode : GNode) :
    ∀ (fuel : Nat) (st : AState), AInv st →
    AInv (animLoop nodes edges startKey endKey endNode fuel st)
  | 0, st, hinv => hinv
  | fuel + 1, st, hinv => by
    unfold animLoop
    by_cases hemp : st.pq.isEmpty = true
    · rw [if_pos hemp]
      exact hinv
    · rw [if_neg hemp]
      by_cases hcap : ¬ (st.animationSteps.length < MAX_ANIMATION_STEPS)
      · rw [if_pos hcap]
        exact hinv
      · rw [if_neg hcap]
        rcases hdq : heapDequeue st.pq with ⟨ofst, pq'⟩
        cases ofst with
        | none => exact hinv
        | some entry =>
          dsimp only
          by_cases hvis : entry.element ∈ st.visited
          · rw [if_pos hvis]
            exact animLoop_ainv nodes edges startKey endKey endNode fuel _ hinv
          · rw [if_neg hvis]
            have hst1 := ainv_close st entry.element pq'
              (if 0 < (reconstructGraphPath st.previous startKey entry.element).length
               then reconstructGraphPath st.previous startKey entry.element
               else [startKey]) hvis hinv
            by_cases hgoal : entry.element = endKey
            · rw [if_pos hgoal]
              exact ainv_complete _ _ _ _ hst1
            · rw [if_neg hgoal]
              apply animLoop_ainv
              have hcur : entry.element ∈ setAdd st.visited entry.element :=
                mem_setAdd_self _ _
              by_cases hnear : manhattanDist (getNode nodes entry.element) endNode ≤ 3 ∧
                  50 < (setAdd st.visited entry.element).length
              · rw [if_pos hnear]
                refine (relaxFoldA_ainv nodes endNode (getNode nodes entry.element)
                  entry.element ((alookup edges entry.element).getD []) _ ?_ ?_).1
                · exact hcur
                · exact hst1
              · rw [if_neg hnear]
                refine (relaxFoldA_ainv nodes endNode (getNode nodes entry.element)
                  entry.element ((alookup edges entry.element).getD []) _ ?_ ?_).1
                · exact hcur
                · exact hst1

theorem foldl_dinit_noLink (startNode : GNode) (radius : ℚ)
    (nodes : List (NodeKey × GNode)) :
    ∀ (l : List (NodeKey × GNode)) (st : DState),
    (∀ k p, alookup st.previous k ≠ some (some p)) →
    (∀ k p, alookup ((l.foldl (fun (st : DState) kv =>
        let node := getNode nodes kv.1
        if radius < (manhattanDist node startNode : ℚ) then st
        else { st with
          gCost := mapSet st.gCost kv.1 EQQ.inf,
          fCost := mapSet st.fCost kv.1 EQQ.inf,
          previous := mapSet st.previous kv.1 none }) st)).previous k ≠
      some (some p)) ∧
    (l.foldl (fun (st : DState) kv =>
        let node := getNode nodes kv.1
        if radius < (manhattanDist node startNode : ℚ) then st
        else { st with
          gCost := mapSet st.gCost kv.1 EQQ.inf,
          fCost := mapSet st.fCost kv.1 EQQ.inf,
          previous := mapSet st.previous kv.1 none }) st).visited = st.visited := by
  intro l
  induction l with
  | nil => intro st hst; exact ⟨hst, rfl⟩
  | cons kv rest ih =>
    intro st hst
    simp only [List.foldl_cons]
    by_cases hskip : radius < (manhattanDist (getNode nodes kv.1) startNode : ℚ)
    · rw [if_pos hskip]
      exact ih st hst
    · rw [if_neg hskip]
      refine ih _ ?_
      intro k p
      by_cases hk : k = kv.1
      · subst hk
        rw [alookup_mapSet_self]
        simp
      · rw [alookup_mapSet_ne _ _ _ _ hk]
        exact hst k p

theorem dijkstraInit_dinv (startKey endKey : NodeKey)
    (nodes : List (NodeKey × GNode)) :
    DInvP (dijkstraInit startKey endKey nodes).previous
      (dijkstraInit startKey endKey nodes).visited := by
  unfold dijkstraInit
  dsimp only
  have h := foldl_dinit_noLink (getNode nodes startKey)
    ((manhattanDist (getNode nodes startKey) (getNode nodes endKey) : ℚ) * (3 / 2))
    nodes nodes ⟨[], [], [], [], [], 0, min 1000 ((nodes.length : ℚ) * (1 / 2))⟩
    (by intro k p; simp [alookup])
  constructor
  · intro k p hk
    exact absurd hk (h.1 k p)
  · intro k hk
    rw [h.2] at hk
    simp at hk

theorem foldl_ainit_noLink :
    ∀ (l : List (NodeKey × GNode)) (st : AState),
    (∀ k p, alookup st.previous k ≠ some (some p)) →
    (∀ k p, alookup ((l.foldl (fun (st : AState) kv =>
        { st with
          gCost := mapSet st.gCost kv.1 EQQ.inf,
          fCost := mapSet st.fCost kv.1 EQQ.inf,
          previous := mapSet st.previous kv.1 none }) st)).previous k ≠
      some (some p)) ∧
    (l.foldl (fun (st : AState) kv =>
        { st with
          gCost := mapSet st.gCost kv.1 EQQ.inf,
          fCost := mapSet st.fCost kv.1 EQQ.inf,
          previous := mapSet st.previous kv.1 none }) st).visited = st.visited ∧
    (l.foldl (fun (st : AState) kv =>
        { st with
          gCost := mapSet st.gCost kv.1 EQQ.inf,
          fCost := mapSet st.fCost kv.1 EQQ.inf,
          previous := mapSet st.previous kv.1 none }) st).animationSteps =
      st.animationSteps ∧
    (l.foldl (fun (st : AState) kv =>
        { st with
          gCost := mapSet st.gCost kv.1 EQQ.inf,
          fCost := mapSet st.fCost kv.1 EQQ.inf,
          previous := mapSet st.previous kv.1 none }) st).lastVisitedSize =
      st.lastVisitedSize := by
  intro l
  induction l with
  | nil => intro st hst; exact ⟨hst, rfl, rfl, rfl⟩
  | cons kv rest ih =>
    intro st hst
    simp only [List.foldl_cons]
    refine ih _ ?_
    intro k p
    by_cases hk : k = kv.1
    · subst hk
      rw [alookup_mapSet_self]
      simp
    · rw [alookup_mapSet_ne _ _ _ _ hk]
      exact hst k p

theorem animFinalState_ainv (startKey endKey : NodeKey)
    (nodes : List (NodeKey × GNode)) (edges : List (NodeKey × List NodeKey)) :
    AInv (animFinalState startKey endKey nodes edges) := by
  unfold animFinalState
  dsimp only
  apply animLoop_ainv
  have h := foldl_ainit_noLink nodes ⟨[], [], [], [], [], [], 0⟩
    (by intro k p; simp [alookup])
  obtain ⟨hnolink, hvis, hsteps, hlast⟩ := h
  refine ⟨⟨?_, ?_⟩, ?_, ?_, ?_, ?_⟩
  · intro k p hk
    exact absurd hk (hnolink k p)
  · intro k hk
    rw [hvis] at hk
    simp at hk
  · rw [hlast, hvis]
    rfl
  · intro k hk
    simp [exploreCurrent] at hk
  · simp [exploreCurrent]
  · intro x hx
    simp [exploreNew] at hx

/-- **C7.** `reconstructGraphPath` walks the predecessor links backwards
from the end key; if the head of the reversed walk is not the requested
start key it returns the empty sequence, and otherwise it returns the
walked sequence, whose first element is the start key and whose last
element is the end key. -/
theorem C7_reconstruct_guard (previous : List (NodeKey × Option NodeKey))
    (startKey endKey : NodeKey) :
    ((walkAux previous (previous.length + 1) endKey).reverse.head? ≠
        some startKey →
      reconstructGraphPath previous startKey endKey = []) ∧
    ((walkAux previous (previous.length + 1) endKey).reverse.head? =
        some startKey →
      reconstructGraphPath previous startKey endKey =
        (walkAux previous (previous.length + 1) endKey).reverse ∧
      (reconstructGraphPath previous startKey endKey).head? = some startKey ∧
      (reconstructGraphPath previous startKey endKey).getLast? =
        some endKey) := by
  unfold reconstructGraphPath
  constructor
  · intro hne
    rw [if_neg hne]
  · intro hh
    rw [if_pos hh]
    refine ⟨rfl, hh, ?_⟩
    rw [List.getLast?_reverse]
    exact walkAux_head previous (previous.length + 1) endKey

theorem C7_reconstruct_guard_witness :
    (walkAux demoPrev (demoPrev.length + 1) (1, 1)).reverse.head? =
      some (0, 0) ∧
    reconstructGraphPath demoPrev (0, 0) (1, 1) = [(0, 0), (1, 1)] ∧
    (reconstructGraphPath demoPrev (0, 0) (1, 1)).head? = some (0, 0) ∧
    (reconstructGraphPath demoPrev (0, 0) (1, 1)).getLast? = some (1, 1) := by
  have h := (C7_reconstruct_guard demoPrev (0, 0) (1, 1)).2 (by decide)
  exact ⟨by decide, by decide, h.2.1, h.2.2⟩

/-- **C9.** In every run of `dijkstraGraphAnimated`, the `current` keys of
the recorded `explore` steps are pairwise distinct (no key is closed
twice), and the `newVisited` field of every `explore` step equals `1`. -/
theorem C9_explore_unique (startKey endKey : NodeKey)
    (nodes : List (NodeKey × GNode)) (edges : List (NodeKey × List NodeKey)) :
    ((dijkstraGraphAnimated startKey endKey nodes edges).filterMap
        exploreCurrent).Nodup ∧
    ∀ x ∈ (dijkstraGraphAnimated startKey endKey nodes edges).filterMap
        exploreNew, x = 1 := by
  have h := animFinalState_ainv startKey endKey nodes edges
  exact ⟨h.2.2.2.1, h.2.2.2.2⟩

theorem C9_explore_unique_witness :
    ((dijkstraGraphAnimated (0, 0) (1, 0) demoNodes demoEdges).filterMap
        exploreCurrent).Nodup ∧
    (1 : Nat) ∈ (dijkstraGraphAnimated (0, 0) (1, 0) demoNodes
        demoEdges).filterMap exploreNew ∧
    (1 : Nat) = 1 := by
  refine ⟨(C9_explore_unique (0, 0) (1, 0) demoNodes demoEdges).1, ?_, ?_⟩
  · decide
  · exact (C9_explore_unique (0, 0) (1, 0) demoNodes demoEdges).2 1 (by decide)

/-- **C10.** The predecessor walk of `reconstructGraphPath` stabilises (the
JS `while (current)` loop terminates) on every `previous` map whose chain
from the queried key dies out in finitely many steps, and the `previous`
maps produced by `dijkstraGraph` and by `dijkstraGraphAnimated` have this
property at every key: their predecessor links form no cycle. -/
theorem C10_reconstruct_terminates :
    (∀ (previous : List (NodeKey × Option NodeKey)) (k : NodeKey) (n : Nat),
      diesWithin previous n k →
      ∀ m, n ≤ m → walkAux previous m k = walkAux previous n k) ∧
    (∀ (startKey endKey : NodeKey) (nodes : List (NodeKey × GNode))
      (edges : List (NodeKey × List NodeKey)) (k : NodeKey),
      ∃ n, diesWithin (dijkstraGraph startKey endKey nodes edges).previous
        n k) ∧
    (∀ (startKey endKey : NodeKey) (nodes : List (NodeKey × GNode))
      (edges : List (NodeKey × List NodeKey)) (k : NodeKey),
      ∃ n, diesWithin (animFinalState startKey endKey nodes edges).previous
        n k) := by
  refine ⟨fun previous k n hd m hm => walkAux_stable previous hd m hm, ?_, ?_⟩
  · intro s e nodes edges k
    have h := dijkstraLoop_dinv nodes edges e (getNode nodes e)
      (dijkstraFuel nodes edges) (dijkstraInit s e nodes)
      (dijkstraInit_dinv s e nodes)
    exact dinvP_total h k
  · intro s e nodes edges k
    exact dinvP_total (animFinalState_ainv s e nodes edges).1 k

theorem C10_reconstruct_terminates_witness :
    diesWithin demoPrev 1 (1, 1) ∧
    walkAux demoPrev 5 (1, 1) = walkAux demoPrev 1 (1, 1) := by
  have hd : diesWithin demoPrev 1 (1, 1) := by
    unfold diesWithin
    exact Or.inr ⟨(0, 0), rfl, by unfold diesWithin; rfl⟩
  exact ⟨hd, C10_reconstruct_terminates.1 demoPrev (1, 1) 1 hd 5 (by omega)⟩

/-- **C6.** After any sequence of `enqueue`/`dequeue` calls on a fresh
`PriorityQueue`: `dequeue` on an empty queue returns the empty result, and
`dequeue` on a non-empty queue removes and returns an entry of minimal
priority among the entries currently stored (the rest is a permutation of
the other entries). -/
theorem C6_dequeue_min (ops : List PQOp) :
    (heapIsEmpty (applyOps ops) = true →
      heapDequeue (applyOps ops) = (none, [])) ∧
    (heapIsEmpty (applyOps ops) = false →
      ∃ ent rest, heapDequeue (applyOps ops) = (some ent, rest) ∧
        (∀ x ∈ applyOps ops, EQQ.leb ent.priority x.priority = true) ∧
        List.Perm (ent :: rest) (applyOps ops)) := by
  constructor
  · intro hemp
    have hnil : applyOps ops = [] := by
      simpa [heapIsEmpty] using hemp
    rw [hnil]
    rfl
  · intro hne
    have hnil : applyOps ops ≠ [] := by
      simpa [heapIsEmpty] using hne
    obtain ⟨rest, hdq⟩ := heapDequeue_shape _ hnil
    exact ⟨geth (applyOps ops) 0, rest, hdq,
      heapInv_root_min _ (applyOps_heapInv ops),
      heapDequeue_perm _ _ _ hdq⟩

theorem C6_dequeue_min_witness :
    (heapIsEmpty (applyOps []) = true ∧
      heapDequeue (applyOps []) = (none, [])) ∧
    (heapIsEmpty (applyOps demoOps) = false ∧
      ∃ ent rest, heapDequeue (applyOps demoOps) = (some ent, rest) ∧
        (∀ x ∈ applyOps demoOps, EQQ.leb ent.priority x.priority = true) ∧
        List.Perm (ent :: rest) (applyOps demoOps)) :=
  ⟨⟨by decide, (C6_dequeue_min []).1 (by decide)⟩,
   ⟨by decide, (C6_dequeue_min demoOps).2 (by decide)⟩⟩

/-- **C1.** `generateGraphStructure` is deterministic: at equal argument
tuples two calls return identical node maps (hence bit-identical weights)
and identical edge maps, and the permutation table that drives all
randomness is a function of the effective seed alone (updated through the
linear-congruential `lcgNext`). -/
theorem C1_generate_deterministic (w₁ h₁ s₁ : Nat) (d₁ : ℚ)
    (w₂ h₂ s₂ : Nat) (d₂ : ℚ) (hw : w₁ = w₂) (hh : h₁ = h₂) (hs : s₁ = s₂)
    (hd : d₁ = d₂) :
    (generateGraphStructure w₁ h₁ s₁ d₁).nodes =
      (generateGraphStructure w₂ h₂ s₂ d₂).nodes ∧
    (generateGraphStructure w₁ h₁ s₁ d₁).edges =
      (generateGraphStructure w₂ h₂ s₂ d₂).edges ∧
    generatePermutation (effectiveSeed h₁ s₁) =
      generatePermutation (effectiveSeed h₂ s₂) := by
  subst hw hh hs hd
  exact ⟨rfl, rfl, rfl⟩

theorem C1_generate_deterministic_witness :
    (generateGraphStructure 3 3 7 1).nodes =
      (generateGraphStructure 3 3 7 1).nodes ∧
    (generateGraphStructure 3 3 7 1).edges =
      (generateGraphStructure 3 3 7 1).edges ∧
    generatePermutation (effectiveSeed 3 7) =
      generatePermutation (effectiveSeed 3 7) :=
  C1_generate_deterministic 3 3 7 1 3 3 7 1 rfl rfl rfl rfl

/-- **C4.** Every node stored by `generateGraphStructure` has weight at
least `0.1` (the final `Math.max(0.1, …)` floor), for all arguments. -/
theorem C4_weight_floor (gridWidth gridHeight seed : Nat) (detail : ℚ)
    (kv : NodeKey × GNode)
    (hmem : kv ∈ (generateGraphStructure gridWidth gridHeight seed
      detail).nodes) :
    1 / 10 ≤ kv.2.weight := by
  unfold generateGraphStructure at hmem
  dsimp only at hmem
  rw [List.mem_map] at hmem
  obtain ⟨c, _, hc⟩ := hmem
  rw [← hc]
  exact le_max_left _ _

set_option maxRecDepth 100000 in
theorem C4_weight_floor_witness :
    ((0, 0), (⟨0, 0, 3 / 10⟩ : GNode)) ∈
      (generateGraphStructure 1 1 42 1).nodes ∧
    1 / 10 ≤ ((⟨0, 0, 3 / 10⟩ : GNode)).weight := by
  have hmem : ((0, 0), (⟨0, 0, 3 / 10⟩ : GNode)) ∈
      (generateGraphStructure 1 1 42 1).nodes := by decide
  exact ⟨hmem, C4_weight_floor 1 1 42 1 _ hmem⟩

/-- **C2 (amended).** On the uniform-weight 3×3 grid the exploration cap
`maxNodesToExplore = min(1000, 9 · 0.5) = 4.5` stops the batch search
before the far corner is reached: `findShortestGraphPath("0,0", "2,2")`
returns the empty path with distance `Infinity` and `pathExists = false`,
not a 5-key path of distance 4. -/
theorem C2_small_grid_path :
    findShortestGraphPath (0, 0) (2, 2) nodes33 edges33 =
      ⟨[], some EQQ.inf, false⟩ := by
  decide

/-- **C2 (counterexample to the claimed 5-node, distance-4 result).** -/
theorem C2_small_grid_path_cex :
    ¬ ((findShortestGraphPath (0, 0) (2, 2) nodes33 edges33).path.length =
        5 ∧
      (findShortestGraphPath (0, 0) (2, 2) nodes33 edges33).distance =
        some (EQQ.fin 4)) := by
  decide

/-- **C3 (amended).** The four-band weight policy, with the formulas and
value ranges the code actually computes: each band applies an affine map
anchored at the band's lower endpoint, so band 1 produces weights *below*
`0.1` (not `[0.1, 0.25]`), band 2 starts at `-0.25` (not `0.5`), and bands
3 and 4 meet the claimed ranges only up to their open upper endpoints. -/
theorem C3_weight_bands (n : ℚ) :
    (n < -(3 / 10) →
      rawWeightOfNoise n = 1 / 10 + (n + 3 / 10) * (1 / 2) ∧
      rawWeightOfNoise n < 1 / 10) ∧
    (-(3 / 10) ≤ n → n < 1 / 10 →
      rawWeightOfNoise n = 1 / 2 + n * (5 / 2) ∧
      -(1 / 4) ≤ rawWeightOfNoise n ∧ rawWeightOfNoise n < 3 / 4) ∧
    (1 / 10 ≤ n → n < 2 / 5 →
      rawWeightOfNoise n = 2 + (n - 1 / 10) * 10 ∧
      2 ≤ rawWeightOfNoise n ∧ rawWeightOfNoise n < 5) ∧
    (2 / 5 ≤ n →
      rawWeightOfNoise n = 8 + (n - 2 / 5) * (2833 / 100) ∧
      8 ≤ rawWeightOfNoise n ∧ (n ≤ 1 → rawWeightOfNoise n < 25)) := by
  unfold rawWeightOfNoise
  refine ⟨?_, ?_, ?_, ?_⟩
  · intro h1
    rw [if_pos h1]
    exact ⟨rfl, by linarith⟩
  · intro h1 h2
    rw [if_neg (by linarith), if_pos h2]
    exact ⟨rfl, by linarith, by linarith⟩
  · intro h1 h2
    rw [if_neg (by linarith), if_neg (by linarith), if_pos h2]
    exact ⟨rfl, by linarith, by linarith⟩
  · intro h1
    rw [if_neg (by linarith), if_neg (by linarith), if_neg (by linarith)]
    exact ⟨rfl, by linarith, fun hn => by linarith⟩

theorem C3_weight_bands_witness :
    (rawWeightOfNoise (-(1 / 2)) = 1 / 10 + (-(1 / 2) + 3 / 10) * (1 / 2) ∧
      rawWeightOfNoise (-(1 / 2)) < 1 / 10) ∧
    (rawWeightOfNoise 0 = 1 / 2 + 0 * (5 / 2) ∧
      -(1 / 4) ≤ rawWeightOfNoise 0 ∧ rawWeightOfNoise 0 < 3 / 4) ∧
    (rawWeightOfNoise (1 / 4) = 2 + (1 / 4 - 1 / 10) * 10 ∧
      2 ≤ rawWeightOfNoise (1 / 4) ∧ rawWeightOfNoise (1 / 4) < 5) ∧
    (rawWeightOfNoise (1 / 2) = 8 + (1 / 2 - 2 / 5) * (2833 / 100) ∧
      8 ≤ rawWeightOfNoise (1 / 2) ∧ rawWeightOfNoise (1 / 2) < 25) :=
  ⟨(C3_weight_bands (-(1 / 2))).1 (by norm_num),
   (C3_weight_bands 0).2.1 (by norm_num) (by norm_num),
   (C3_weight_bands (1 / 4)).2.2.1 (by norm_num) (by norm_num),
   ((C3_weight_bands (1 / 2)).2.2.2 (by norm_num)).1,
   ((C3_weight_bands (1 / 2)).2.2.2 (by norm_num)).2.1,
   ((C3_weight_bands (1 / 2)).2.2.2 (by norm_num)).2.2 (by norm_num)⟩

set_option maxRecDepth 100000 in
/-- **C3 (counterexample).** The cell `(0,1)` of
`generateGraphStructure(12, 12, 42, 1)` has noise in `[-0.3, 0.1)` yet a
band weight below `0.5`, outside the claimed `[0.5, 0.75]`. -/
theorem C3_weight_bands_cex :
    alookup (generateGraphStructure 12 12 42 1).nodes (0, 1) =
      some ⟨0, 1, cellWeight (generatePermutation (effectiveSeed 12 42))
        (effectiveDetail 12 42 1) 0 1⟩ ∧
    -(3 / 10) ≤ noiseValueAt (generatePermutation (effectiveSeed 12 42))
      (effectiveDetail 12 42 1) 0 1 ∧
    noiseValueAt (generatePermutation (effectiveSeed 12 42))
      (effectiveDetail 12 42 1) 0 1 < 1 / 10 ∧
    rawWeightOfNoise (noiseValueAt (generatePermutation (effectiveSeed 12 42))
      (effectiveDetail 12 42 1) 0 1) < 1 / 2 := by
  exact ⟨by decide, by decide, by decide, by decide⟩

theorem gridCells_eq_bind (w h : Nat) :
    gridCells w h =
      (List.range w).bind (fun x => (List.range h).map (fun y => (x, y))) := by
  unfold gridCells
  generalize List.range w = l
  induction l with
  | nil => rfl
  | cons a t ih => simp [List.cons_bind, ih]

theorem mem_gridCells {w h : Nat} {c : NodeKey} :
    c ∈ gridCells w h ↔ c.1 < w ∧ c.2 < h := by
  obtain ⟨a, b⟩ := c
  rw [gridCells_eq_bind]
  simp [List.mem_bind, List.mem_range, List.mem_map]

theorem mem_neighborList {w h x y : Nat} {c : NodeKey} :
    c ∈ neighborList w h x y ↔
      c.1 < w ∧ c.2 < h ∧
      ((c.1 = x + 1 ∧ c.2 = y) ∨ (c.1 + 1 = x ∧ c.2 = y) ∨
       (c.1 = x ∧ c.2 = y + 1) ∨ (c.1 = x ∧ c.2 + 1 = y)) := by
  obtain ⟨a, b⟩ := c
  unfold neighborList
  rw [List.mem_filterMap]
  constructor
  · rintro ⟨d, hd, hfd⟩
    simp only [List.mem_cons, List.not_mem_nil, or_false] at hd
    rcases hd with rfl | rfl | rfl | rfl <;>
      (simp only [] at hfd
       split at hfd
       case isTrue hc =>
         simp only [Option.some.injEq, Prod.mk.injEq] at hfd
         obtain ⟨ha, hb⟩ := hfd
         omega
       case isFalse hc => exact absurd hfd (by simp))
  · rintro ⟨ha, hb, hcase⟩
    rcases hcase with ⟨h1, h2⟩ | ⟨h1, h2⟩ | ⟨h1, h2⟩ | ⟨h1, h2⟩
    · refine ⟨(1, 0), by simp, ?_⟩
      simp only []
      split
      case isTrue hc =>
        simp only [Option.some.injEq, Prod.mk.injEq]
        omega
      case isFalse hc =>
        exfalso
        apply hc
        refine ⟨by omega, by omega, by omega, by omega⟩
    · refine ⟨(-1, 0), by simp, ?_⟩
      simp only []
      split
      case isTrue hc =>
        simp only [Option.some.injEq, Prod.mk.injEq]
        omega
      case isFalse hc =>
        exfalso
        apply hc
        refine ⟨by omega, by omega, by omega, by omega⟩
    · refine ⟨(0, 1), by simp, ?_⟩
      simp only []
      split
      case isTrue hc =>
        simp only [Option.some.injEq, Prod.mk.injEq]
        omega
      case isFalse hc =>
        exfalso
        apply hc
        refine ⟨by omega, by omega, by omega, by omega⟩
    · refine ⟨(0, -1), by simp, ?_⟩
      simp only []
      split
      case isTrue hc =>
        simp only [Option.some.injEq, Prod.mk.injEq]
        omega
      case isFalse hc =>
        exfalso
        apply hc
        refine ⟨by omega, by omega, by omega, by omega⟩

theorem alookup_map_self {β : Type} (f : NodeKey → β) :
    ∀ (l : List NodeKey) (k : NodeKey),
      alookup (l.map (fun c => (c, f c))) k =
        if k ∈ l then some (f k) else none := by
  intro l
  induction l with
  | nil => intro k; rfl
  | cons a t ih =>
    intro k
    simp only [List.map_cons, alookup]
    by_cases hk : a = k
    · subst hk
      rw [if_pos rfl, if_pos (List.mem_cons_self a t)]
    · rw [if_neg hk, ih k]
      by_cases hmem : k ∈ t
      · rw [if_pos hmem, if_pos (List.mem_cons_of_mem a hmem)]
      · rw [if_neg hmem, if_neg (by
          intro hcon
          rcases List.mem_cons.mp hcon with h | h
          · exact hk h.symm
          · exact hmem h)]

/-- **C5 (amended).** In every graph returned by `generateGraphStructure`,
with `H` the *effective* grid height (`gridWidth` when `gridHeight < 10`,
the legacy square-grid branch; `gridHeight` otherwise): every listed
neighbour lies inside `[0, gridWidth) × [0, H)`, differs from its node by
exactly one step in exactly one coordinate, and the edge relation is
symmetric. -/
theorem C5_edges (gw gh seed : Nat) (detail : ℚ) (k nb : NodeKey)
    (hmem : nb ∈ (alookup (generateGraphStructure gw gh seed
      detail).edges k).getD []) :
    (nb.1 < gw ∧ nb.2 < effectiveHeight gw gh) ∧
    ((nb.1 = k.1 + 1 ∧ nb.2 = k.2) ∨ (nb.1 + 1 = k.1 ∧ nb.2 = k.2) ∨
     (nb.1 = k.1 ∧ nb.2 = k.2 + 1) ∨ (nb.1 = k.1 ∧ nb.2 + 1 = k.2)) ∧
    k ∈ (alookup (generateGraphStructure gw gh seed detail).edges
      nb).getD [] := by
  have hedges : (generateGraphStructure gw gh seed detail).edges =
      (gridCells gw (effectiveHeight gw gh)).map
        (fun c => (c, neighborList gw (effectiveHeight gw gh) c.1 c.2)) := rfl
  rw [hedges, alookup_map_self] at hmem
  by_cases hk : k ∈ gridCells gw (effectiveHeight gw gh)
  · rw [if_pos hk] at hmem
    simp only [Option.getD_some] at hmem
    obtain ⟨h1, h2, h3⟩ := mem_neighborList.mp hmem
    have hkb := mem_gridCells.mp hk
    refine ⟨⟨h1, h2⟩, h3, ?_⟩
    rw [hedges, alookup_map_self, if_pos (mem_gridCells.mpr ⟨h1, h2⟩)]
    simp only [Option.getD_some]
    exact mem_neighborList.mpr ⟨hkb.1, hkb.2, by omega⟩
  · rw [if_neg hk] at hmem
    simp at hmem

/-- **C5 (counterexample to the claimed `[0,width) × [0,height)` bounds).**
`generateGraphStructure(5, 3, 42, 1)` takes the legacy branch
(`gridHeight = 3 < 10`) and builds a 5×5 square grid: node `(4,4)` lists
neighbour `(3,4)`, whose `y = 4` is outside the claimed `[0, 3)`. -/
theorem C5_edges_cex :
    (3, 4) ∈ ((alookup (generateGraphStructure 5 3 42 1).edges
      (4, 4)).getD []) ∧
    ¬ ((3 : Nat) < 5 ∧ (4 : Nat) < 3) :=
  ⟨by decide, by decide⟩

theorem C5_edges_witness :
    (1, 0) ∈ ((alookup (generateGraphStructure 3 12 7 1).edges
      (0, 0)).getD []) ∧
    (((1 : Nat) < 3 ∧ (0 : Nat) < effectiveHeight 3 12) ∧
     (((1 : Nat) = 0 + 1 ∧ (0 : Nat) = 0) ∨ (1 + 1 = 0 ∧ (0 : Nat) = 0) ∨
      ((1 : Nat) = 0 ∧ (0 : Nat) = 0 + 1) ∨ ((1 : Nat) = 0 ∧ 0 + 1 = 0)) ∧
     (0, 0) ∈ ((alookup (generateGraphStructure 3 12 7 1).edges
       (1, 0)).getD [])) := by
  have hmem : (1, 0) ∈ ((alookup (generateGraphStructure 3 12 7 1).edges
      (0, 0)).getD []) := by decide
  exact ⟨hmem, C5_edges 3 12 7 1 (0, 0) (1, 0) hmem⟩

theorem relaxNeighborA_steps (nodes : List (NodeKey × GNode))
    (endNode currentNode : GNode) (currentKey : NodeKey) (st : AState)
    (nb : NodeKey) :
    (relaxNeighborA nodes endNode currentNode currentKey st nb).animationSteps =
      st.animationSteps := by
  unfold relaxNeighborA
  by_cases hnb : nb ∈ st.visited
  · rw [if_pos hnb]
  · rw [if_neg hnb]
    cases hga : alookup st.gCost currentKey with
    | none => rfl
    | some gc =>
      cases hgb : alookup st.gCost nb with
      | none => rfl
      | some gb =>
        dsimp only
        by_cases hlt : EQQ.ltb (tentativeCost nodes currentNode gc nb) gb = true
        · rw [if_pos hlt]
        · rw [if_neg hlt]

theorem relaxFoldA_steps (nodes : List (NodeKey × GNode))
    (endNode currentNode : GNode) (currentKey : NodeKey) :
    ∀ (conns : List NodeKey) (st : AState),
    (conns.foldl (relaxNeighborA nodes endNode currentNode currentKey)
      st).animationSteps = st.animationSteps := by
  intro conns
  induction conns with
  | nil => intro st; rfl
  | cons c cs ih =>
    intro st
    simp only [List.foldl_cons]
    rw [ih, relaxNeighborA_steps]

theorem animLoop_length_le (nodes : List (NodeKey × GNode))
    (edges : List (NodeKey × List NodeKey)) (startKey endKey : NodeKey)
    (endNode : GNode) :
    ∀ (fuel : Nat) (st : AState),
    st.animationSteps.length ≤ MAX_ANIMATION_STEPS + 1 →
    (animLoop nodes edges startKey endKey endNode fuel
      st).animationSteps.length ≤ MAX_ANIMATION_STEPS + 1
  | 0, st, h => h
  | fuel + 1, st, h => by
    unfold animLoop
    by_cases hemp : st.pq.isEmpty = true
    · rw [if_pos hemp]
      exact h
    · rw [if_neg hemp]
      by_cases hcap : ¬ (st.animationSteps.length < MAX_ANIMATION_STEPS)
      · rw [if_pos hcap]
        exact h
      · rw [if_neg hcap]
        push_neg at hcap
        rcases hdq : heapDequeue st.pq with ⟨ofst, pq'⟩
        cases ofst with
        | none => exact h
        | some entry =>
          dsimp only
          by_cases hvis : entry.element ∈ st.visited
          · rw [if_pos hvis]
            exact animLoop_length_le nodes edges startKey endKey endNode fuel
              _ h
          · rw [if_neg hvis]
            by_cases hgoal : entry.element = endKey
            · rw [if_pos hgoal]
              simp only [List.length_append, List.length_cons,
                List.length_nil]
              omega
            · rw [if_neg hgoal]
              apply animLoop_length_le
              rw [relaxFoldA_steps]
              by_cases hreb : manhattanDist (getNode nodes entry.element)
                  endNode ≤ 3 ∧ 50 < (setAdd st.visited entry.element).length
              · rw [if_pos hreb]
                simp only [List.length_append, List.length_cons,
                  List.length_nil]
                omega
              · rw [if_neg hreb]
                simp only [List.length_append, List.length_cons,
                  List.length_nil]
                omega

/-- **C8.** The `while` guard admits an iteration whenever fewer than
`MAX_ANIMATION_STEPS = 1500` steps are recorded, and that iteration may
append an `explore` *and* a `complete` step, so the provable bound on the
returned sequence is `1501`, not the claimed `1500` (and `1501` is
attained, e.g. on a 1499-node hub graph whose goal is reached exactly when
1500 steps are already recorded). -/
theorem C8_animation_cap (startKey endKey : NodeKey)
    (nodes : List (NodeKey × GNode)) (edges : List (NodeKey × List NodeKey)) :
    (dijkstraGraphAnimated startKey endKey nodes edges).length ≤
      MAX_ANIMATION_STEPS + 1 := by
  unfold dijkstraGraphAnimated animFinalState
  dsimp only
  apply animLoop_length_le
  simp [MAX_ANIMATION_STEPS]
